import Mathlib

/-!
Verification development for the Kona bundler.

This file gives a shallow embedding, in Lean, of the parts of the Kona
source that the specification's claims are about:

* the module resolver (`src/core/resolver/moduleResolver.ts`),
* the bundler's graph construction, tree shaking, chunking and
  topological sort (`Bundler` in the bundler core file),
* the compile-time `define` substitution (`Bundler.applyDefines` and
  `TurboBundler.transformBatch`),
* the parser's top-level-await scope walk (`KonaParser.parse`),
* the dev server's `rebuild` error handling.

Filesystem access, the TypeScript compiler and the WebSocket transport
are external to the repository; they are modelled as explicit data
(an `FS` record, an AST type, a result/message list) so that every
definition here is executable.  JavaScript strings are modelled as
Lean `String`s over their character lists (the sources only manipulate
ASCII paths and tokens, where JavaScript's UTF-16 `length` is the
character count), and JavaScript `Map`s as association lists that
preserve insertion order, which is what `Map` iteration order is in
JavaScript.  Recursions are phrased structurally (with an explicit
fuel where the source recursion is bounded by an invariant), so every
definition evaluates inside the kernel.
-/

namespace Kona

/-! ## Character-list string primitives

Lean's built-in `String` functions are runtime-oriented and do not
reduce inside the kernel, so the string operations the sources use are
implemented here over the underlying character lists. -/

/-- Whether the first list is an initial run of the second (JavaScript
`startsWith` on the raw characters). -/
def leadChars : List Char → List Char → Bool
  | [], _ => true
  | _ :: _, [] => false
  | a :: as, b :: bs => a = b && leadChars as bs

/-- JavaScript `s.startsWith(pre)`. -/
def sStartsWith (s pre : String) : Bool := leadChars pre.data s.data

/-- JavaScript `s.endsWith(suf)`. -/
def sEndsWith (s suf : String) : Bool := leadChars suf.data.reverse s.data.reverse

/-- JavaScript `s.length` (ASCII, so UTF-16 units are characters). -/
def sLength (s : String) : Nat := s.data.length

/-- JavaScript `s.slice(n)`. -/
def sDrop (s : String) (n : Nat) : String := String.mk (s.data.drop n)

/-- JavaScript `s.slice(0, s.length - n)`. -/
def sDropRight (s : String) (n : Nat) : String :=
  String.mk (s.data.take (s.data.length - n))

/-- Split on a separator character; like JavaScript `split`, the
result always has at least one (possibly empty) group. -/
def splitOnChar (c : Char) : List Char → List (List Char)
  | [] => [[]]
  | x :: rest =>
    let r := splitOnChar c rest
    if x = c then [] :: r
    else
      match r with
      | [] => [[x]]
      | g :: gs => (x :: g) :: gs

/-- JavaScript `s.split(c)` for a one-character separator (the only
form the sources use). -/
def sSplitOnChar (c : Char) (s : String) : List String :=
  (splitOnChar c s.data).map String.mk

/-- Join with a separator list. -/
def joinWith (sep : List Char) : List (List Char) → List Char
  | [] => []
  | [x] => x
  | x :: y :: rest => x ++ sep ++ joinWith sep (y :: rest)

/-- Join strings with a one-character separator. -/
def sIntercalateChar (c : Char) (xs : List String) : String :=
  String.mk (joinWith [c] (xs.map String.data))

/-- Replace the first occurrence of `k` in `s` by `v` (JavaScript
`String.prototype.replace` with a string pattern).  An empty `k` never
matches here; the sources only pass `"*"`. -/
def replaceFirstChars (k v : List Char) : List Char → List Char
  | [] => []
  | c :: rest =>
    if k ≠ [] ∧ leadChars k (c :: rest) = true then v ++ (c :: rest).drop k.length
    else c :: replaceFirstChars k v rest

/-- String wrapper of `replaceFirstChars`. -/
def replaceFirst (s pat rep : String) : String :=
  String.mk (replaceFirstChars pat.data rep.data s.data)

/-- Whether `k` occurs as a contiguous run somewhere in `s`. -/
def occursIn (k : List Char) : List Char → Bool
  | [] => k.isEmpty
  | c :: rest => leadChars k (c :: rest) || occursIn k rest

/-- Decidable equality for `Except`, used to compare resolver and
build results in concrete statements. -/
instance {ε α : Type} [DecidableEq ε] [DecidableEq α] : DecidableEq (Except ε α)
  | .error x, .error y =>
    if h : x = y then isTrue (by rw [h])
    else isFalse (fun hc => h (Except.error.inj hc))
  | .error _, .ok _ => isFalse (fun hc => Except.noConfusion hc)
  | .ok _, .error _ => isFalse (fun hc => Except.noConfusion hc)
  | .ok x, .ok y =>
    if h : x = y then isTrue (by rw [h])
    else isFalse (fun hc => h (Except.ok.inj hc))

/-! ## Path model

The resolver uses Node's `path.join`, `path.resolve` and `path.dirname`
on absolute POSIX paths.  We model a path as `/`-separated segments and
normalise `.` and `..` the way `path.join` does. -/

/-- Split a path into its non-empty `/`-separated segments. -/
def splitPath (p : String) : List String :=
  (sSplitOnChar '/' p).filter (fun s => s ≠ "")

/-- Process `.` and `..` segments.  The accumulator holds the already
processed segments in reverse order; `..` pops the most recent one
(at the root it pops nothing, as for absolute POSIX paths). -/
def normSegs : List String → List String → List String
  | acc, [] => acc.reverse
  | acc, "." :: rest => normSegs acc rest
  | acc, ".." :: rest => normSegs (acc.drop 1) rest
  | acc, s :: rest => normSegs (s :: acc) rest

/-- Rebuild an absolute path from segments. -/
def joinSegs (segs : List String) : String :=
  "/" ++ sIntercalateChar '/' segs

/-- Normalise an absolute path. -/
def normalizeAbs (p : String) : String :=
  joinSegs (normSegs [] (splitPath p))

/-- Node `path.join base rel` for an absolute `base`. -/
def pathJoin (base rel : String) : String :=
  joinSegs (normSegs [] (splitPath base ++ splitPath rel))

/-- Node `path.resolve base p` for an absolute `base`: an absolute `p`
wins, otherwise it is joined onto `base`. -/
def pathResolve (base p : String) : String :=
  if sStartsWith p "/" then normalizeAbs p else pathJoin base p

/-- Node `path.dirname` on an absolute path; `dirname "/" = "/"`. -/
def dirname (p : String) : String :=
  joinSegs ((splitPath p).dropLast)

/-! ## Resolver data model

`package.json` contents as the resolver reads them
(`readPackageJson` returns `{}` when the file is unreadable, so every
field is optional).  The `browser` field is modelled in its string
form, the only form `getMainFromPackage` returns (an object-valued
`browser` falls through to the main-fields loop, which our optional
string also reproduces by being absent). -/

/-- The `exports` field of a `package.json`: a JSON tree of strings,
arrays and objects.  Object entries keep their JSON order, which is
the `Object.entries` iteration order the source relies on. -/
inductive ExportsVal where
  | str (s : String)
  | arr (items : List ExportsVal)
  | obj (entries : List (String × ExportsVal))
deriving Repr

/-- Parsed `package.json` contents (the fields the resolver reads). -/
structure Pkg where
  version : Option String := none
  main : Option String := none
  moduleField : Option String := none
  browser : Option String := none
  exports : Option ExportsVal := none
  sideEffects : Option Bool := none
deriving Repr

/-- Dynamic field access `pkg[field]` as used by the main-fields loop. -/
def pkgField (pkg : Pkg) : String → Option String
  | "module" => pkg.moduleField
  | "main" => pkg.main
  | "browser" => pkg.browser
  | _ => none

/-- JavaScript truthiness of an optional string field:
`undefined` and `""` are falsy. -/
def isTruthy : Option String → Bool
  | some s => s ≠ ""
  | none => false

/-- The filesystem as the resolver observes it: regular files,
directories, and parsed `package.json` files by absolute path. -/
structure FS where
  files : List String := []
  dirs : List String := []
  pkgs : List (String × Pkg) := []

/-- `fs.statSync(p).isFile()` (package.json files are files too). -/
def FS.isFile (fs : FS) (p : String) : Bool :=
  p ∈ fs.files || (fs.pkgs.find? (fun e => e.1 = p)).isSome

/-- `fs.statSync(p).isDirectory()`. -/
def FS.isDir (fs : FS) (p : String) : Bool :=
  p ∈ fs.dirs

/-- `fs.existsSync`. -/
def FS.existsSync (fs : FS) (p : String) : Bool :=
  fs.isFile p || fs.isDir p

/-- `readPackageJson`: parse the `package.json` at `p`, or `{}` when it
is missing or unreadable (the source catches and returns `{}`). -/
def FS.readPkg (fs : FS) (p : String) : Pkg :=
  ((fs.pkgs.find? (fun e => e.1 = p)).map Prod.snd).getD {}

/-- Resolver options with the source's defaults
(`DEFAULT_EXTENSIONS`, `DEFAULT_MAIN_FIELDS`, `DEFAULT_CONDITION_NAMES`). -/
structure ROpts where
  basedir : String
  extensions : List String :=
    [".ts", ".tsx", ".js", ".jsx", ".mjs", ".mts", ".cjs", ".cts", ".json"]
  aliasMap : List (String × String) := []
  pathsMap : List (String × List String) := []
  baseUrl : String := ""
  mainFields : List String := ["module", "main", "browser"]
  conditionNames : List String := ["import", "require", "default", "browser", "node"]
  browser : Bool := true
  external : List String := []

/-- `ResolveResult` as returned by `ModuleResolver.resolve`. -/
structure ResolveResult where
  path : String
  external : Bool
  packageName : Option String := none
  packageVersion : Option String := none
  sideEffects : Option Bool := none
deriving Repr, DecidableEq

/-- The Node builtin module list hardcoded in `isExternal`. -/
def builtins : List String :=
  ["fs", "path", "os", "util", "events", "stream", "http", "https",
   "url", "querystring", "crypto", "zlib", "buffer", "child_process",
   "cluster", "dgram", "dns", "net", "readline", "repl", "tls", "tty",
   "v8", "vm", "worker_threads", "assert", "async_hooks", "console",
   "constants", "domain", "inspector", "module", "perf_hooks", "process",
   "punycode", "string_decoder", "sys", "timers", "trace_events", "wasi"]

/-- `ModuleResolver.isExternal`: `node:` prefix, builtin first segment,
or a configured external name / `name*` pattern. -/
def isExternal (opts : ROpts) (specifier : String) : Bool :=
  if sStartsWith specifier "node:" then true
  else
    let name := (sSplitOnChar '/' specifier).headD ""
    if name ∈ builtins then true
    else opts.external.any (fun ext =>
      ext = specifier ||
      (sEndsWith ext "*" && sStartsWith specifier (sDropRight ext 1)))

/-- `ModuleResolver.resolveAlias`: first matching alias entry wins;
an exact match substitutes the target, an `alias/` leading match keeps
the tail. -/
def resolveAlias (aliasEntries : List (String × String)) (spec : String) : String :=
  match aliasEntries with
  | [] => spec
  | (a, t) :: rest =>
    if spec = a then t
    else if sStartsWith spec (a ++ "/") then t ++ sDrop spec (sLength a)
    else resolveAlias rest spec

/-- Split a pattern at its first `*`; `none` when it has no `*`.
Any further `*` stays part of the literal tail (only the first `\*`
is turned into a capture group by `patternToRegex` and by the
`exports` pattern code). -/
def splitAtStar (pattern : String) : Option (String × String) :=
  match sSplitOnChar '*' pattern with
  | [] => none
  | [_] => none
  | pre :: p1 :: rest => some (pre, sIntercalateChar '*' (p1 :: rest))

/-- Matching against `patternToRegex` (capture `(.*)`, possibly empty).
Returns `some capture` on a match; a star-free pattern matches only
itself with no capture.  The source builds the regex from the escaped
pattern, so the literal parts match literally. -/
def matchTsPattern (pattern s : String) : Option (Option String) :=
  match splitAtStar pattern with
  | none => if s = pattern then some none else none
  | some pp =>
    if sStartsWith s pp.1 && sEndsWith (sDrop s (sLength pp.1)) pp.2 &&
       sLength pp.1 + sLength pp.2 ≤ sLength s
    then some (some (sDropRight (sDrop s (sLength pp.1)) (sLength pp.2)))
    else none

/-- Matching an `exports` pattern key (capture `(.+)`, non-empty).
The source builds `RegExp` from the raw key without escaping, so a `.`
in the key is really a regex wildcard; no claim exercises that, and we
match the literal characters of the key. -/
def matchExportPattern (pattern s : String) : Option String :=
  match splitAtStar pattern with
  | none => none
  | some pp =>
    if sStartsWith s pp.1 && sEndsWith (sDrop s (sLength pp.1)) pp.2 &&
       sLength pp.1 + sLength pp.2 < sLength s
    then some (sDropRight (sDrop s (sLength pp.1)) (sLength pp.2))
    else none

/-- `ModuleResolver.getMainFromPackage`: string `browser` field first
when resolving for the browser, then the configured main fields in
order (`module`, `main`, `browser` by default), skipping falsy values. -/
def getMainFromPackage (opts : ROpts) (pkg : Pkg) : Option String :=
  if opts.browser && isTruthy pkg.browser then pkg.browser
  else
    match opts.mainFields.find? (fun f => isTruthy (pkgField pkg f)) with
    | some f => pkgField pkg f
    | none => none

/-- `ModuleResolver.tryResolveFile`: the exact path if it is a regular
file, else the first configured extension that yields one. -/
def tryResolveFile (fs : FS) (opts : ROpts) (filePath : String) : Option String :=
  if fs.isFile filePath then some filePath
  else
    (opts.extensions.find? (fun ext => fs.isFile (filePath ++ ext))).map
      (fun ext => filePath ++ ext)

/-- `ModuleResolver.tryResolveDirectory`: a directory resolves through
its `package.json` main entry when that probes to a file, else through
`index` with the configured extensions. -/
def tryResolveDirectory (fs : FS) (opts : ROpts) (dirPath : String) : Option String :=
  if !(fs.existsSync dirPath && fs.isDir dirPath) then none
  else
    let pkgPath := pathJoin dirPath "package.json"
    let viaPkg :=
      if fs.existsSync pkgPath then
        match getMainFromPackage opts (fs.readPkg pkgPath) with
        | some m => tryResolveFile fs opts (pathResolve dirPath m)
        | none => none
      else none
    match viaPkg with
    | some r => some r
    | none => tryResolveFile fs opts (pathJoin dirPath "index")

/-- `ModuleResolver.resolveRelative`. -/
def resolveRelative (fs : FS) (opts : ROpts) (specifier basedir : String) : Option String :=
  let absolutePath := pathResolve basedir specifier
  match tryResolveFile fs opts absolutePath with
  | some r => some r
  | none => tryResolveDirectory fs opts absolutePath

/-- Inner loop of `resolvePaths`: try the targets of a matched pattern
in order, substituting the capture for `*`, and return the first that
probes to an existing file. -/
def tryPathTargets (fs : FS) (opts : ROpts) (cap : Option String) :
    List String → Option String
  | [] => none
  | target :: rest =>
    let resolved := replaceFirst target "*" (cap.getD "")
    match tryResolveFile fs opts (pathResolve opts.baseUrl resolved) with
    | some r => some r
    | none => tryPathTargets fs opts cap rest

/-- Outer loop of `resolvePaths` over the configured pattern map. -/
def pathsLoop (fs : FS) (opts : ROpts) (specifier : String) :
    List (String × List String) → Option String
  | [] => none
  | (pattern, targets) :: rest =>
    match matchTsPattern pattern specifier with
    | some cap =>
      match tryPathTargets fs opts cap targets with
      | some r => some r
      | none => pathsLoop fs opts specifier rest
    | none => pathsLoop fs opts specifier rest

/-- `ModuleResolver.resolvePaths` (tsconfig path mapping): disabled
when `baseUrl` is empty; otherwise the first pattern matching the
specifier tries its targets in order and the first existing file wins. -/
def resolvePaths (fs : FS) (opts : ROpts) (specifier : String) : Option String :=
  if opts.baseUrl = "" then none
  else pathsLoop fs opts specifier opts.pathsMap

/-! ## Package `exports` resolution

These recursions descend the `exports` tree; the fuel is the tree's
`sizeOf`, which strictly exceeds every child's, so the wrappers below
never exhaust it. -/

mutual
/-- Size of an `exports` tree, used as fuel: every recursion of the
resolution functions descends into a strictly smaller subtree. -/
def exSize : ExportsVal → Nat
  | .str _ => 1
  | .arr items => 1 + exSizeList items
  | .obj entries => 1 + exSizeObj entries

/-- Size of an `exports` array. -/
def exSizeList : List ExportsVal → Nat
  | [] => 0
  | x :: rest => 1 + exSize x + exSizeList rest

/-- Size of an `exports` object entry list. -/
def exSizeObj : List (String × ExportsVal) → Nat
  | [] => 0
  | e :: rest => 1 + exSize e.2 + exSizeObj rest
end

/-- First success of a list of attempts (the `for … if … return` loops). -/
def firstSome {α : Type} : List (Option α) → Option α
  | [] => none
  | o :: rest =>
    match o with
    | some r => some r
    | none => firstSome rest

/-- `ModuleResolver.resolveExportsTarget`: a string target joins onto
the package root; an object walks the configured condition names in
order and recurses into the first present condition.  An array target
hits the object branch in the source (`typeof` is `'object'`) but no
condition name is an array index, so it yields `null`; we return
`none` directly. -/
def resolveExportsTargetF (conds : List String) :
    Nat → ExportsVal → String → Option String
  | 0, _, _ => none
  | _ + 1, .str t, packagePath => some (pathJoin packagePath t)
  | _ + 1, .arr _, _ => none
  | fuel + 1, .obj entries, packagePath =>
    match conds.find? (fun c => (entries.find? (fun e => e.1 = c)).isSome) with
    | some c =>
      match entries.find? (fun e => e.1 = c) with
      | some e => resolveExportsTargetF conds fuel e.2 packagePath
      | none => none
    | none => none

/-- Pattern-key loop of `ModuleResolver.resolveExports`: the first key
containing `*` whose pattern matches the subpath, and whose target
resolves, wins; the capture replaces the first `*` of the resolved
path. -/
def exportsPatterns (conds : List String) (fuel : Nat) (subpath packagePath : String) :
    List (String × ExportsVal) → Option String
  | [] => none
  | (pattern, target) :: rest =>
    match matchExportPattern pattern subpath with
    | some cap =>
      match resolveExportsTargetF conds fuel target packagePath with
      | some r => some (replaceFirst r "*" cap)
      | none => exportsPatterns conds fuel subpath packagePath rest
    | none => exportsPatterns conds fuel subpath packagePath rest

/-- `ModuleResolver.resolveExports`: strings resolve only the root
subpath `"."`; arrays are try-in-order fallback chains; objects try a
literal subpath key first (returning that target's resolution even if
it is `none`), then pattern keys, then the configured condition names
in order. -/
def resolveExportsF (conds : List String) :
    Nat → ExportsVal → String → String → Option String
  | 0, _, _, _ => none
  | _ + 1, .str t, subpath, packagePath =>
    if subpath = "." then some (pathJoin packagePath t) else none
  | fuel + 1, .arr items, subpath, packagePath =>
    firstSome (items.map (fun x => resolveExportsF conds fuel x subpath packagePath))
  | fuel + 1, .obj entries, subpath, packagePath =>
    match entries.find? (fun e => e.1 = subpath) with
    | some e => resolveExportsTargetF conds fuel e.2 packagePath
    | none =>
      match exportsPatterns conds fuel subpath packagePath entries with
      | some r => some r
      | none =>
        match conds.find? (fun c => (entries.find? (fun e => e.1 = c)).isSome) with
        | some c =>
          match entries.find? (fun e => e.1 = c) with
          | some e => resolveExportsF conds fuel e.2 subpath packagePath
          | none => none
        | none => none

/-- Fuel-applied wrapper for `resolveExportsTarget`. -/
def resolveExportsTarget (conds : List String) (e : ExportsVal) (packagePath : String) :
    Option String :=
  resolveExportsTargetF conds (exSize e) e packagePath

/-- Fuel-applied wrapper for `resolveExports`. -/
def resolveExports (conds : List String) (e : ExportsVal) (subpath packagePath : String) :
    Option String :=
  resolveExportsF conds (exSize e) e subpath packagePath

/-! ## Bare-specifier resolution (`resolveNodeModule`) -/

/-- Split a bare specifier into package name and subpath
(`resolveNodeModule`: scoped packages take two segments).  A lone
`@scope` specifier makes the source read `parts[1]` as `undefined`;
we model the missing segment as `""`. -/
def specParts (specifier : String) : String × String :=
  let parts := sSplitOnChar '/' specifier
  if sStartsWith specifier "@" then
    ((parts.headD "") ++ "/" ++ ((parts[1]?).getD ""),
      sIntercalateChar '/' (parts.drop 2))
  else ((parts.headD ""), sIntercalateChar '/' (parts.drop 1))

/-- Package-metadata result built at each success point of
`resolveNodeModule`. -/
def pkgResult (pkgName : String) (pkg : Pkg) (p : String) : ResolveResult :=
  { path := p, external := false, packageName := some pkgName,
    packageVersion := pkg.version, sideEffects := pkg.sideEffects }

/-- The `while` walk of `resolveNodeModule`: at each directory level,
look for `node_modules/<pkg>/package.json`; `exports` with a non-empty
subpath is tried first and returns directly on a match; then for the
root the `exports` `"."` entry, then the main fields or the direct
subpath join, completed through the file/directory probes.  On failure
the walk continues one directory up until `dirname` is a fixed point.
The fuel is the segment count of the start directory plus one, which
the walk never exhausts; the `0` case mirrors the loop falling through
to the final `throw`. -/
def walkUp (fs : FS) (opts : ROpts) (pkgName subpath specifier basedir : String) :
    Nat → String → Except String ResolveResult
  | 0, _ => .error ("Cannot find module " ++ specifier ++ " from " ++ basedir)
  | fuel + 1, current =>
    if current = dirname current then
      .error ("Cannot find module " ++ specifier ++ " from " ++ basedir)
    else
      let next := walkUp fs opts pkgName subpath specifier basedir fuel (dirname current)
      let nmPath := pathJoin (pathJoin current "node_modules") pkgName
      if fs.existsSync nmPath then
        let pkgPath := pathJoin nmPath "package.json"
        if fs.existsSync pkgPath then
          let pkg := fs.readPkg pkgPath
          let viaExportsSub : Option ResolveResult :=
            match pkg.exports with
            | some e =>
              if subpath ≠ "" then
                (resolveExports opts.conditionNames e ("./" ++ subpath) nmPath).map
                  (pkgResult pkgName pkg)
              else none
            | none => none
          match viaExportsSub with
          | some r => .ok r
          | none =>
            let viaExportsRoot : Option ResolveResult :=
              if subpath = "" then
                match pkg.exports with
                | some e =>
                  (resolveExports opts.conditionNames e "." nmPath).map
                    (pkgResult pkgName pkg)
                | none => none
              else none
            match viaExportsRoot with
            | some r => .ok r
            | none =>
              let targetPath :=
                if subpath ≠ "" then pathJoin nmPath subpath
                else
                  match getMainFromPackage opts pkg with
                  | some m => pathJoin nmPath m
                  | none => nmPath
              match (tryResolveFile fs opts targetPath).orElse
                  (fun _ => tryResolveDirectory fs opts targetPath) with
              | some p => .ok (pkgResult pkgName pkg p)
              | none => next
        else next
      else next

/-- `ModuleResolver.resolveNodeModule`. -/
def resolveNodeModule (fs : FS) (opts : ROpts) (specifier basedir : String) :
    Except String ResolveResult :=
  let ps := specParts specifier
  walkUp fs opts ps.1 ps.2 specifier basedir
    ((splitPath basedir).length + 1) basedir

/-- `ModuleResolver.resolveInternal`: externals, then aliases (the
source restarts on a substitution; a cyclic alias map makes it recur
forever, which the fuel turns into an error on those inputs), then
tsconfig paths, then relative/absolute specifiers, then `node_modules`. -/
def resolveInternal (fs : FS) (opts : ROpts) :
    Nat → String → String → Except String ResolveResult
  | 0, specifier, basedir =>
    .error ("Cannot resolve " ++ specifier ++ " from " ++ basedir)
  | fuel + 1, specifier, basedir =>
    if isExternal opts specifier then
      .ok { path := specifier, external := true }
    else
      let aliased := resolveAlias opts.aliasMap specifier
      if aliased ≠ specifier then resolveInternal fs opts fuel aliased basedir
      else
        match resolvePaths fs opts specifier with
        | some p => .ok { path := p, external := false }
        | none =>
          if sStartsWith specifier "." || sStartsWith specifier "/" then
            match resolveRelative fs opts specifier basedir with
            | some r => .ok { path := r, external := false }
            | none =>
              .error ("Cannot resolve " ++ specifier ++ " from " ++ basedir)
          else resolveNodeModule fs opts specifier basedir

/-- The resolution cache, keyed on `(containing directory, specifier)`
(the source concatenates them with `:` into one string key). -/
abbrev RCache := List ((String × String) × Option String)

/-- Alias-restart fuel for `resolveInternal`; any acyclic alias
configuration needs at most one restart per alias entry. -/
def resolverFuel (opts : ROpts) : Nat := opts.aliasMap.length + 1

/-- Body of `ModuleResolver.resolve` once the containing directory is
computed: a cached hit returns `{ path: cached, external: false }`
(dropping any package metadata of the original result), a cached
failure rethrows, and a miss runs `resolveInternal`, caching the
resolved path on success and `null` on failure. -/
def resolveCached (fs : FS) (opts : ROpts) (cache : RCache)
    (specifier basedir : String) : Except String ResolveResult × RCache :=
  match cache.find? (fun e => e.1 = (basedir, specifier)) with
  | some (_, some p) => (.ok { path := p, external := false }, cache)
  | some (_, none) =>
    (.error ("Cannot resolve module " ++ specifier ++ " from " ++ basedir), cache)
  | none =>
    match resolveInternal fs opts (resolverFuel opts) specifier basedir with
    | .ok r => (.ok r, ((basedir, specifier), some r.path) :: cache)
    | .error e => (.error e, ((basedir, specifier), none) :: cache)

/-- `ModuleResolver.resolve`: the containing directory of the importer
(or the configured base directory) keys the cache. -/
def resolveWithCache (fs : FS) (opts : ROpts) (cache : RCache)
    (specifier : String) (fromFile : Option String) :
    Except String ResolveResult × RCache :=
  resolveCached fs opts cache specifier
    (match fromFile with | some f => dirname f | none => opts.basedir)

/-- `ModuleResolver.clearCache` empties both caches. -/
def clearCache (_ : RCache) : RCache := []

/-! ## Bundler: module graph construction

The `Bundler` builds its module map by a recursive `processModule`.
Reading and parsing a file is external input here: a `World` maps each
existing file path to its parsed import list, and the resolver the
bundler consults is an oracle `resolve : specifier → importer → result`
(its internals are embedded separately above; the bundler only consumes
success/failure, the `external` flag and the returned metadata).
Plugin callbacks are not modelled (the claims involve none).  Module
ids, paths relative to the project root, are modelled by the absolute
paths themselves. -/

/-- One entry of `parseResult.imports` as `processModule` consumes it. -/
structure ImportInfo where
  source : String
  isDynamic : Bool := false
  isTypeOnly : Bool := false
deriving Repr, DecidableEq

/-- A recorded dependency edge. -/
structure Dependency where
  specifier : String
  resolved : String
  isDynamic : Bool
  isTypeOnly : Bool
deriving Repr, DecidableEq

/-- A module record.  The source/transformed text and hash do not feed
the graph, shaking or chunking logic and are omitted;
`sideEffects` is the flag `processModule` stores. -/
structure Module where
  path : String
  imports : List ImportInfo := []
  dependencies : List Dependency := []
  dependents : List String := []
  isEntry : Bool := false
  isDynamic : Bool := false
  chunk : Option String := none
  sideEffects : Bool := true
deriving Repr, DecidableEq

/-- Result of the bundler's resolver oracle (`ResolveResult` fields the
bundler reads: `path`, `external`, and the package metadata it could
read but does not). -/
structure WResolve where
  path : String
  external : Bool
  sideEffects : Option Bool := none
deriving Repr, DecidableEq

/-- The world `Bundler.processModule` observes: parsed files and the
resolver; `none` from `resolve` models the resolver throwing. -/
structure World where
  files : List (String × List ImportInfo) := []
  resolve : String → String → Option WResolve

/-- `this.modules.get(p)` on the insertion-ordered module map. -/
def findMod (st : List Module) (p : String) : Option Module :=
  st.find? (fun m => m.path = p)

/-- `module.dependencies.push(d)` for the module at `p`. -/
def addDependency (st : List Module) (p : String) (d : Dependency) : List Module :=
  st.map (fun m => if m.path = p then { m with dependencies := m.dependencies ++ [d] } else m)

/-- `depModule.dependents.add(dep)` (a `Set`, so adding is idempotent). -/
def addDependent (st : List Module) (p dep : String) : List Module :=
  st.map (fun m =>
    if m.path = p then
      { m with dependents :=
        if dep ∈ m.dependents then m.dependents else m.dependents ++ [dep] }
    else m)

/-- Build errors `processModule` can throw.  `outOfFuel` is an artifact
of the fuelled embedding: the real recursion adds a module per nesting
level and cannot nest deeper than the file count, so the fuel passed
by `buildGraph` is never exhausted. -/
inductive BuildErr where
  | fileNotFound (p : String)
  | outOfFuel
deriving Repr, DecidableEq

/-- The dependency loop of `processModule`, parameterised by the
recursive call `recM` (the equations of `processModule` pass
themselves at the next fuel): skip type-only imports; resolve
each import inside a `try` whose `catch` only warns, so a resolver throw
contributes nothing and a failing recursive `processModule` leaves the
already-pushed (dangling) edge in place; external results record no
edge. -/
def processImportsGo (w : World) (modulePath : String)
    (recM : String → Bool → Bool → List Module → Except BuildErr (List Module)) :
    List ImportInfo → List Module → List Module
  | [], st => st
  | imp :: rest, st =>
    let st' :=
      if imp.isTypeOnly then st
      else
        match w.resolve imp.source modulePath with
        | none => st
        | some r =>
          if r.external then st
          else
            let st1 := addDependency st modulePath
              { specifier := imp.source, resolved := r.path,
                isDynamic := imp.isDynamic, isTypeOnly := imp.isTypeOnly }
            match recM r.path false imp.isDynamic st1 with
            | .ok st2 => addDependent st2 r.path modulePath
            | .error _ => st1
    processImportsGo w modulePath recM rest st'

/-- `Bundler.processModule`: return the existing module, else load and
parse the file (throwing when it does not exist), insert the new module
— with `sideEffects := true`, the literal the source stores under a
`TODO: check package.json` comment, never consulting the resolver's
package metadata — and then process its imports. -/
def processModule (w : World) :
    Nat → String → Bool → Bool → List Module → Except BuildErr (List Module)
  | 0, _, _, _, _ => .error .outOfFuel
  | fuel + 1, modulePath, isEntry, isDyn, st =>
    if (findMod st modulePath).isSome then .ok st
    else
      match w.files.find? (fun f => f.1 = modulePath) with
      | none => .error (.fileNotFound modulePath)
      | some f =>
        let m : Module :=
          { path := modulePath, imports := f.2, isEntry := isEntry,
            isDynamic := isDyn, sideEffects := true }
        .ok (processImportsGo w modulePath
          (fun p a b s => processModule w fuel p a b s) f.2 (st ++ [m]))

/-- Fuel that the real (unfuelled) recursion never exceeds: each
nesting level inserts a distinct existing file. -/
def bundlerFuel (w : World) : Nat := w.files.length + 1

/-- The graph-building loop of `Bundler.build`: entries are processed
in order, outside any `try`, so an entry failure aborts the build. -/
def buildGraph (w : World) (entries : List String) : Except BuildErr (List Module) :=
  entries.foldlM (fun st e => processModule w (bundlerFuel w) e true false st) []

/-! ## Tree shaking -/

/-- One pass of the `while (changed)` usage-propagation loop of
`Bundler.treeShake`: every dependency of an already-used module
becomes used (the loop only ever stores the full-usage marker `*`,
so the used set is just a set of paths). -/
def shakePass (mods : List Module) (used : List String) : List String :=
  mods.foldl (fun used m =>
    if m.path ∈ used then
      m.dependencies.foldl
        (fun used d => if d.resolved ∈ used then used else used ++ [d.resolved]) used
    else used) used

/-- Iterate `shakePass` to its fixpoint (the pass only appends, so
`changed` is exactly a growth in length). -/
def shakeLoop (mods : List Module) : Nat → List String → List String
  | 0, used => used
  | fuel + 1, used =>
    let used' := shakePass mods used
    if used'.length = used.length then used else shakeLoop mods fuel used'

/-- Fuel bounding the fixpoint iteration: every productive pass adds a
path drawn from the module paths and dependency targets. -/
def shakeFuel (mods : List Module) : Nat :=
  mods.length + (mods.map (fun m => m.dependencies.length)).sum + 1

/-- `Bundler.treeShake`: seed the used set with the entries, propagate
along dependencies, then delete the modules that are unused **and**
flagged side-effect free. -/
def treeShake (mods : List Module) : List Module :=
  let seeded := mods.foldl (fun used m => if m.isEntry then used ++ [m.path] else used) []
  let used := shakeLoop mods (shakeFuel mods) seeded
  mods.filter (fun m => m.path ∈ used || m.sideEffects)

/-! ## Chunk assignment -/

/-- Stand-in for the first six hex characters of the md5 digest used in
chunk names: the digest is an external library call and only serves as
a deterministic name per path, so we use the path itself. -/
def hashStandIn (p : String) : String := p

/-- Set the chunk of the module at `p`. -/
def setChunk (st : List Module) (p c : String) : List Module :=
  st.map (fun m => if m.path = p then { m with chunk := some c } else m)

/-- One pass of the chunk-propagation loop of `Bundler.splitCode`: an
unassigned module takes the chunk of its first dependent that has one,
observing assignments made earlier in the same pass. -/
def assignPass (mods : List Module) : List Module :=
  (mods.map Module.path).foldl (fun cur p =>
    match findMod cur p with
    | some m =>
      if m.chunk.isSome then cur
      else
        match (m.dependents.filterMap (fun dp => (findMod cur dp).bind Module.chunk)).head? with
        | some c => setChunk cur p c
        | none => cur
    | none => cur) mods

/-- Number of chunk-assigned modules, the quantity each pass grows. -/
def assignedCount (mods : List Module) : Nat :=
  (mods.filter (fun m => m.chunk.isSome)).length

/-- Iterate `assignPass` until a pass assigns nothing. -/
def assignLoop : Nat → List Module → List Module
  | 0, mods => mods
  | fuel + 1, mods =>
    let mods' := assignPass mods
    if assignedCount mods' = assignedCount mods then mods else assignLoop fuel mods'

/-- `Bundler.splitCode`: entry modules root `entry-` chunks, dynamic
targets root `chunk-` chunks, remaining modules inherit a dependent's
chunk, and any still-unassigned module falls back to the first entry's
chunk (or `main`). -/
def splitCode (mods : List Module) : List Module :=
  let m1 := mods.map (fun m =>
    if m.isEntry then { m with chunk := some ("entry-" ++ hashStandIn m.path) } else m)
  let m2 := m1.map (fun m =>
    if m.isDynamic && m.chunk.isNone then
      { m with chunk := some ("chunk-" ++ hashStandIn m.path) }
    else m)
  let m3 := assignLoop (m2.length + 1) m2
  let fec := ((m3.find? (fun m => m.isEntry)).bind Module.chunk).getD "main"
  m3.map (fun m => if m.chunk.isSome then m else { m with chunk := some fec })

/-- `Bundler.createSingleChunk`. -/
def createSingleChunk (mods : List Module) : List Module :=
  mods.map (fun m => { m with chunk := some "bundle" })

/-! ## Topological sort and chunk generation -/

/-- The dependency loop of `visit` inside `Bundler.topologicalSort`,
parameterised by the recursive call `recV`: recurse into each
dependency that is a module of this chunk (`this.modules.get` then
`modules.includes`). -/
def visitDepsGo (all chunk : List Module)
    (recV : Module → List String → List String × List Module → List String × List Module) :
    List Dependency → List String → List String × List Module → List String × List Module
  | [], _, st => st
  | d :: rest, visiting, st =>
    let st' :=
      match findMod all d.resolved with
      | some dm => if dm ∈ chunk then recV dm visiting st else st
      | none => st
    visitDepsGo all chunk recV rest visiting st'

/-- `visit` inside `Bundler.topologicalSort`: a depth-first walk with a
`visited` set, a `visiting` stack that cuts cycles, and a post-order
`result` push.  The fuel is an embedding artifact: the stack grows by
one distinct chunk path per nesting level, so the fuel passed by
`topologicalSort` is never exhausted. -/
def visitF (all chunk : List Module) :
    Nat → Module → List String → List String × List Module → List String × List Module
  | 0, _, _, st => st
  | fuel + 1, m, visiting, st =>
    if m.path ∈ st.1 then st
    else if m.path ∈ visiting then st
    else
      let st' := visitDepsGo all chunk
        (fun dm vis s => visitF all chunk fuel dm vis s)
        m.dependencies (m.path :: visiting) st
      (m.path :: st'.1, st'.2 ++ [m])

/-- `Bundler.topologicalSort` over the modules of one chunk, with the
whole module map `all` for dependency lookup. -/
def topologicalSort (all chunk : List Module) : List Module :=
  (chunk.foldl (fun st m => visitF all chunk (chunk.length + 1) m [] st) ([], [])).2

/-- Grouping of `generateChunks`: modules by chunk id, first-seen
order, `main` for an unassigned module. -/
def groupByChunk (mods : List Module) : List (String × List Module) :=
  mods.foldl (fun acc m =>
    let cid := m.chunk.getD "main"
    if (acc.find? (fun g => g.1 = cid)).isSome then
      acc.map (fun g => if g.1 = cid then (g.1, g.2 ++ [m]) else g)
    else acc ++ [(cid, [m])]) []

/-- An emitted chunk record (the generated code text, hash and the
import/export name lists do not feed any claim and are omitted). -/
structure ChunkOut where
  id : String
  name : String
  modulePaths : List String
  isEntry : Bool
  isDynamic : Bool
deriving Repr, DecidableEq

/-- `Bundler.generateChunks`: group, topologically sort each group, and
emit one chunk record per group. -/
def generateChunks (mods : List Module) : List ChunkOut :=
  (groupByChunk mods).map (fun g =>
    let isEntry := g.2.any Module.isEntry
    let isDyn := g.2.any Module.isDynamic && !isEntry
    let sorted := topologicalSort mods g.2
    { id := g.1, name := if isEntry then "index" else g.1,
      modulePaths := sorted.map Module.path, isEntry := isEntry, isDynamic := isDyn })

/-- The `BundlerOptions` fields that steer the modelled pipeline. -/
structure BOpts where
  entries : List String
  treeshake : Bool := true
  splitting : Bool := true

/-- The bundle output (chunks plus the final module map). -/
structure BuildOutput where
  chunks : List ChunkOut
  modules : List Module
deriving Repr, DecidableEq

/-- `Bundler.build`: graph construction (entry failures propagate),
optional tree shaking, chunk assignment, chunk generation. -/
def build (w : World) (opts : BOpts) : Except BuildErr BuildOutput :=
  match buildGraph w opts.entries with
  | .error e => .error e
  | .ok st0 =>
    let st1 := if opts.treeshake then treeShake st0 else st0
    let st2 := if opts.splitting then splitCode st1 else createSingleChunk st1
    .ok { chunks := generateChunks st2, modules := st2 }

/-! ## Compile-time `define` substitution

`Bundler.applyDefines` and the define loop of
`TurboBundler.transformBatch` run, for each `define` entry, the same
statement: `code.replace(new RegExp(escapeRegex(key), 'g'), value)` —
a plain global textual replacement of the escaped key.  A global
string replace scans left to right, replaces non-overlapping
occurrences and does not rescan replacements, which is the recursion
below; the fuel is the length of the scanned text, which the wrapper
supplies exactly. -/

/-- Fuelled global replacement of `k` by `v`. -/
def replaceAllF (k v : List Char) : Nat → List Char → List Char
  | 0, s => s
  | fuel + 1, s =>
    if k ≠ [] ∧ leadChars k s = true then v ++ replaceAllF k v fuel (s.drop k.length)
    else
      match s with
      | [] => []
      | c :: rest => c :: replaceAllF k v fuel rest

/-- Replace every occurrence of `k` in `s` by `v`, left to right,
non-overlapping, without rescanning replacements (the semantics of a
global replace with an escaped-literal regex). -/
def replaceAllChars (k v s : List Char) : List Char :=
  replaceAllF k v s.length s

/-- `Bundler.applyDefines`: fold the global replacement over the
`define` entries in order. -/
def applyDefines (defines : List (List Char × List Char)) (code : List Char) : List Char :=
  defines.foldl (fun c kv => replaceAllChars kv.1 kv.2 c) code

/-- String-level wrapper of `applyDefines`. -/
def applyDefinesStr (defines : List (String × String)) (code : String) : String :=
  String.mk (applyDefines (defines.map (fun kv => (kv.1.data, kv.2.data))) code.data)

/-! ## Parser: top-level-await scope walk

`KonaParser.parse` visits every node of the TypeScript AST; at each
`AwaitExpression` it climbs the parent chain and sets
`hasTopLevelAwait` unless it first meets a `FunctionDeclaration`,
`FunctionExpression`, `ArrowFunction` or `MethodDeclaration` (those
four kinds exactly) before the `SourceFile`.  Equivalently, top-down:
the flag is set iff some `await` node is reachable from the source
file without passing through one of those four kinds.  The TypeScript
parser itself is external; we model its tree shape, with the node
kinds the walk distinguishes (accessors and constructors are
function-like syntax the walk does *not* stop at; the TypeScript
parser produces `AwaitExpression` nodes inside them by error
recovery, attaching the corresponding diagnostic). -/

/-- The syntax kinds the scope walk distinguishes. -/
inductive NodeKind where
  | awaitExpr
  | functionDecl
  | functionExpr
  | arrowFunction
  | methodDecl
  | getAccessor
  | setAccessor
  | constructorDecl
  | classDecl
  | otherKind
deriving Repr, DecidableEq

/-- A TypeScript AST node: a kind and its children. -/
inductive TsNode where
  | node (kind : NodeKind) (children : List TsNode)
deriving Repr

mutual
/-- Node count of a tree, used as fuel: it strictly exceeds the
tree's depth. -/
def tsSize : TsNode → Nat
  | .node _ cs => 1 + tsSizeList cs

/-- Node count of a forest. -/
def tsSizeList : List TsNode → Nat
  | [] => 0
  | c :: rest => tsSize c + tsSizeList rest
end

/-- The kinds at which the parent walk in `KonaParser.parse` breaks
(the four `ts.is*` checks in the source). -/
def stopsWalk (k : NodeKind) : Bool :=
  k = .functionDecl || k = .functionExpr || k = .arrowFunction || k = .methodDecl

/-- Fuelled top-down form of the source's walk: `true` iff the subtree
has an `await` not separated from this node by one of the four stop
kinds. -/
def tlaWalkF : Nat → TsNode → Bool
  | 0, _ => false
  | fuel + 1, .node k cs =>
    if k = .awaitExpr then true
    else if stopsWalk k then false
    else cs.any (fun c => tlaWalkF fuel c)

/-- The walk at its exact fuel. -/
def tlaWalk (t : TsNode) : Bool := tlaWalkF (tsSize t) t

/-- `parse`'s `hasTopLevelAwait` for a source file with the given
top-level statements. -/
def parseTLA (stmts : List TsNode) : Bool :=
  stmts.any tlaWalk

/-- Modelled from the claim's words: the function-like kinds the claim
enumerates — function declarations, function expressions, arrow
functions, methods, and accessors. -/
def isFunctionLike (k : NodeKind) : Bool :=
  stopsWalk k || k = .getAccessor || k = .setAccessor

/-- Modelled from the claim's words, fuelled: an `await` whose nearest
enclosing function (in the claim's sense, accessors included) is the
module itself. -/
def tlaSpecWalkF : Nat → TsNode → Bool
  | 0, _ => false
  | fuel + 1, .node k cs =>
    if k = .awaitExpr then true
    else if isFunctionLike k then false
    else cs.any (fun c => tlaSpecWalkF fuel c)

/-- The claim-side walk at its exact fuel. -/
def tlaSpecWalk (t : TsNode) : Bool := tlaSpecWalkF (tsSize t) t

/-- The claim-side flag for a source file. -/
def specTLA (stmts : List TsNode) : Bool :=
  stmts.any tlaSpecWalk

/-- Declarative witness that a node contains an `await` reachable
without crossing one of the four kinds the source's walk stops at. -/
inductive TlaWitness : TsNode → Prop where
  | here (cs : List TsNode) : TlaWitness (.node .awaitExpr cs)
  | through (k : NodeKind) (cs : List TsNode) (c : TsNode) :
      stopsWalk k = false → c ∈ cs → TlaWitness c → TlaWitness (.node k cs)

/-! ## Dev server: rebuild

The dev server's `rebuild` guards on `isRebuilding`, runs a fresh
bundler build, and on success computes the client updates, replaces
`currentBundle` and broadcasts `update` (or `full-reload` when the
update list is empty); the `catch` broadcasts an `error` message and
touches neither `currentBundle` nor the emitted files.  The bundler
run and the `getUpdates` diff are passed in as values here (`build`'s
outcome as an `Except`, the diff as a function), and a broadcast is
the list of messages sent to the connected clients. -/

/-- Wire messages of the HMR channel (payload details irrelevant to
the claims are reduced to the fields compared). -/
inductive HMRMsg where
  | connected (timestamp : Nat)
  | update (timestamp : Nat) (updates : List String)
  | fullReload (timestamp : Nat)
  | errMsg (message : String)
deriving Repr, DecidableEq

/-- The dev-server state `rebuild` reads and writes. -/
structure DevState where
  currentBundle : Option BuildOutput
  isRebuilding : Bool
deriving Repr, DecidableEq

/-- `rebuild`: returns the successor state and the broadcast messages. -/
def rebuild (st : DevState) (buildResult : Except String BuildOutput)
    (getUpdates : Option BuildOutput → BuildOutput → List String) (now : Nat) :
    DevState × List HMRMsg :=
  if st.isRebuilding then (st, [])
  else
    match buildResult with
    | .ok newBundle =>
      let updates := getUpdates st.currentBundle newBundle
      ({ currentBundle := some newBundle, isRebuilding := false },
        if updates ≠ [] then [.update now updates] else [.fullReload now])
    | .error e => ({ st with isRebuilding := false }, [.errMsg e])

/-! ## Concrete instances used by the counterexamples and witnesses -/

/-- A project whose dependency `pkg` has an `exports` field that does
not match the root subpath, plus a `main` field that points to an
existing file. -/
def fsExportsMiss : FS :=
  { files := ["/r/node_modules/pkg/m.js", "/r/node_modules/pkg/s.js"],
    dirs := ["/r", "/r/app", "/r/node_modules", "/r/node_modules/pkg"],
    pkgs := [("/r/node_modules/pkg/package.json",
      { main := some "./m.js",
        exports := some (.obj [("./sub", .str "./s.js")]) })] }

/-- Default options rooted at `/r/app`. -/
def optsR : ROpts := { basedir := "/r/app" }

/-- A package whose `exports` resolves both the root and the `./sub`
subpath, parameterised by its entry fields; no plain files exist, so
any successful resolution can only come from `exports`. -/
def fsExportsHit (m mo br : Option String) : FS :=
  { files := [],
    dirs := ["/r", "/r/app", "/r/node_modules", "/r/node_modules/pkg"],
    pkgs := [("/r/node_modules/pkg/package.json",
      { main := m, moduleField := mo, browser := br,
        version := some "1.0.0", sideEffects := some false,
        exports := some (.obj [(".", .str "./e.js"), ("./sub", .str "./es.js")]) })] }

/-- The spec's conditional-exports example: `pkg/sub` with a `browser`
and a `default` condition. -/
def fsCond : FS :=
  { files := ["/r/node_modules/pkg/b.js", "/r/node_modules/pkg/d.js"],
    dirs := ["/r", "/r/app", "/r/node_modules", "/r/node_modules/pkg"],
    pkgs := [("/r/node_modules/pkg/package.json",
      { exports := some (.obj [("./sub",
          .obj [("browser", .str "./b.js"), ("default", .str "./d.js")])]) })] }

/-- Options for a given build target. -/
def optsTarget (b : Bool) : ROpts := { basedir := "/r/app", browser := b }

/-- A filesystem where `./y` does not resolve from `/app`. -/
def fsNoY : FS := { dirs := ["/app"] }

/-- The same project after `/app/y.js` has been created. -/
def fsWithY : FS := { files := ["/app/y.js"], dirs := ["/app"] }

/-- Default options rooted at `/app`. -/
def optsApp : ROpts := { basedir := "/app" }

/-- A world whose entry has one import that the resolver cannot
resolve. -/
def wUnresolved : World :=
  { files := [("/p/main.js", [{ source := "./missing" }])],
    resolve := fun _ _ => none }

/-- A world whose entry imports `./u.js`, a module of a package whose
descriptor declares `sideEffects: false` — visible in the resolver
metadata the bundler receives and ignores. -/
def wSideEff : World :=
  { files := [("/p/main.js", [{ source := "./u.js" }]), ("/p/u.js", [])],
    resolve := fun spec _ =>
      if spec = "./u.js" then
        some { path := "/p/u.js", external := false, sideEffects := some false }
      else none }

/-- A world with a two-module chunkable graph `main → dep`. -/
def wTwo : World :=
  { files := [("/p/main.js", [{ source := "./dep.js" }]), ("/p/dep.js", [])],
    resolve := fun spec _ =>
      if spec = "./dep.js" then some { path := "/p/dep.js", external := false }
      else none }

/-- Top-level statements with an `await` inside a class getter and no
other enclosing function: the source's walk flags this as top-level
await, the claim's function list does not. -/
def stmtsAccessor : List TsNode :=
  [.node .classDecl [.node .getAccessor [.node .awaitExpr []]]]

/-- A tiny bundle output for dev-server witnesses. -/
def tinyBundle : BuildOutput :=
  { chunks := [{ id := "entry-/p/a.js", name := "index",
                 modulePaths := ["/p/a.js"], isEntry := true, isDynamic := false }],
    modules := [{ path := "/p/a.js" }] }

/-- The two modules of `wTwo` as a concrete chunk, used to witness the
topological-sort theorem: `cmMain` depends on `cmDep`. -/
def cmDep : Module :=
  { path := "/p/dep.js", dependents := ["/p/main.js"],
    chunk := some "entry-/p/main.js" }

/-- The entry module of the concrete chunk. -/
def cmMain : Module :=
  { path := "/p/main.js",
    imports := [{ source := "./dep.js" }],
    dependencies := [{ specifier := "./dep.js", resolved := "/p/dep.js",
                       isDynamic := false, isTypeOnly := false }],
    isEntry := true, chunk := some "entry-/p/main.js" }

/-! ## Relations and invariants for the topological-sort proof -/

/-- One intra-chunk dependency step, exactly the two checks `visit`
performs before recursing: the edge's resolved path looks up to `B` in
the module map and `B` is one of the chunk's modules; `A ∈ chunk`
records that `visit` only ever runs on chunk members. -/
def Step (all chunk : List Module) (A B : Module) : Prop :=
  A ∈ chunk ∧ B ∈ chunk ∧ ∃ d ∈ A.dependencies, findMod all d.resolved = some B

/-- No module reaches itself through intra-chunk dependency steps
(the claim's cycles are excluded). -/
def Acyclic (all chunk : List Module) : Prop :=
  ∀ m, ¬ Relation.TransGen (Step all chunk) m m

/-- Ordering invariant of the DFS state: every already-pushed module
has each of its intra-chunk dependencies either pushed before it or
currently on the `visiting` stack. -/
def OrdInv (all chunk : List Module) (V : List String) (res : List Module) : Prop :=
  ∀ xs A ys, res = xs ++ A :: ys →
    ∀ d ∈ A.dependencies, ∀ B, findMod all d.resolved = some B → B ∈ chunk →
      B ∈ xs ∨ B.path ∈ V

/-- Stack invariant: every path on `visiting` belongs to a chunk
module that reaches the module currently being visited. -/
def AncStack (all chunk : List Module) (V : List String) (m : Module) : Prop :=
  ∀ p ∈ V, ∃ C, C ∈ chunk ∧ C.path = p ∧ Relation.TransGen (Step all chunk) C m

/-- Bookkeeping invariant tying the `visited` set to the `result`
list: same paths in reverse push order, without duplicates, all from
the chunk. -/
def StInv (chunk : List Module) (st : List String × List Module) : Prop :=
  st.1 = (st.2.map Module.path).reverse ∧ (∀ x ∈ st.2, x ∈ chunk) ∧ st.1.Nodup

/-- The DFS only appends to `result` and pushes the corresponding
paths onto `visited`. -/
def Grows (st st' : List String × List Module) : Prop :=
  ∃ Δ, st'.2 = st.2 ++ Δ ∧ st'.1 = (Δ.map Module.path).reverse ++ st.1

/-- Number of chunk paths not yet on the `visiting` stack; the DFS
nesting depth is bounded by it. -/
def kRem (paths V : List String) : Nat :=
  (paths.filter (fun p => ¬ p ∈ V)).length

/-! # Theorems

Helper lemmas come first, then one theorem per claim (with its
counterexample and witness where required). -/

/-- After a successful `resolveCached`, a repeated call with the same
key — against any filesystem — answers from the cache:
`{ path := cached path, external := false }`, no metadata. -/
theorem resolveCached_repeat (fs fs2 : FS) (opts : ROpts) (cache : RCache)
    (spec bd : String) (r : ResolveResult) (c' : RCache)
    (h : resolveCached fs opts cache spec bd = (.ok r, c')) :
    (resolveCached fs2 opts c' spec bd).1 = .ok { path := r.path, external := false } := by
  unfold resolveCached at h ⊢
  rcases hfind : cache.find? (fun e => e.1 = (bd, spec)) with _ | ⟨k, v⟩
  · rw [hfind] at h
    simp only at h
    rcases hint : resolveInternal fs opts (resolverFuel opts) spec bd with e0 | r0
    · rw [hint] at h
      simp at h
    · rw [hint] at h
      simp only [Prod.mk.injEq, Except.ok.injEq] at h
      obtain ⟨hr, hc⟩ := h
      subst hr
      rw [← hc]
      simp [List.find?]
  · rw [hfind] at h
    rcases v with _ | p
    · simp at h
    · simp only [Prod.mk.injEq, Except.ok.injEq] at h
      obtain ⟨hr, hc⟩ := h
      subst hc
      rw [hfind, ← hr]

/-- After a failed `resolveCached`, a repeated call with the same key
— against any filesystem — fails from the negative cache entry and
leaves the cache unchanged. -/
theorem resolveCached_error_repeat (fs fs2 : FS) (opts : ROpts) (cache : RCache)
    (spec bd : String) (e : String) (c' : RCache)
    (h : resolveCached fs opts cache spec bd = (.error e, c')) :
    resolveCached fs2 opts c' spec bd =
      (.error ("Cannot resolve module " ++ spec ++ " from " ++ bd), c') := by
  unfold resolveCached at h ⊢
  rcases hfind : cache.find? (fun x => x.1 = (bd, spec)) with _ | ⟨k, v⟩
  · rw [hfind] at h
    simp only at h
    rcases hint : resolveInternal fs opts (resolverFuel opts) spec bd with e0 | r0
    · rw [hint] at h
      simp only [Prod.mk.injEq, Except.error.injEq] at h
      obtain ⟨_, hc⟩ := h
      rw [← hc]
      simp [List.find?]
    · rw [hint] at h
      simp at h
  · rw [hfind] at h
    rcases v with _ | p
    · simp only [Prod.mk.injEq, Except.error.injEq] at h
      obtain ⟨_, hc⟩ := h
      subst hc
      rw [hfind]
    · simp at h

/-! ## C1 — `exports` authority in package resolution -/

/-- C1, counterexample.  The claim says that with an `exports` field
present and not matching the requested subpath, resolution fails with
`NotFound` and the `main`, `module` and `browser` fields are never
consulted.  In `fsExportsMiss` the package's `exports` has only a
`./sub` entry, the root subpath is requested, `exports` does not match
— and resolution succeeds through the `main` field. -/
theorem c1_exports_miss_falls_back_to_main :
    (resolveWithCache fsExportsMiss optsR [] "pkg" (some "/r/app/x.js")).1 =
      .ok { path := "/r/node_modules/pkg/m.js", external := false,
            packageName := some "pkg", packageVersion := none,
            sideEffects := none } := by
  rfl

/-- C1, amended: when `exports` is present **and matches** the
requested subpath (root or not), the match is returned as-is and the
`main`/`module`/`browser` fields are never consulted — the result is
the same for every value of those fields, with no plain files on disk
at all.  When `exports` does not match, the resolver instead falls
back to the entry fields (root) or the direct subpath join, as the
counterexample shows. -/
theorem c1_exports_match_ignores_entry_fields (m mo br : Option String) :
    (resolveWithCache (fsExportsHit m mo br) optsR [] "pkg" (some "/r/app/x.js")).1 =
      .ok { path := "/r/node_modules/pkg/e.js", external := false,
            packageName := some "pkg", packageVersion := some "1.0.0",
            sideEffects := some false } ∧
    (resolveWithCache (fsExportsHit m mo br) optsR [] "pkg/sub" (some "/r/app/x.js")).1 =
      .ok { path := "/r/node_modules/pkg/es.js", external := false,
            packageName := some "pkg", packageVersion := some "1.0.0",
            sideEffects := some false } :=
  ⟨rfl, rfl⟩

/-! ## C5 — condition-name priority -/

/-- C5, counterexample.  The claim says a browser-target resolution of
`pkg/sub` against `{"./sub": {"browser": "./b.js", "default":
"./d.js"}}` yields `./b.js`.  It yields `./d.js`: the resolver walks
the single default list `import, require, default, browser, node`, and
`default` is found before `browser`. -/
theorem c5_browser_build_picks_default :
    (resolveWithCache fsCond (optsTarget true) [] "pkg/sub" (some "/r/app/x.js")).1 =
      .ok { path := "/r/node_modules/pkg/d.js", external := false,
            packageName := some "pkg", packageVersion := none,
            sideEffects := none } := by
  rfl

/-- C5, amended: condition keys are tried in the fixed default order
`import, require, default, browser, node` for browser and server
builds alike (no caller overrides `conditionNames`), so the example
resolves to `./d.js` under both targets. -/
theorem c5_condition_order_fixed (b : Bool) (s : String) :
    ({ basedir := s, browser := b } : ROpts).conditionNames =
      ["import", "require", "default", "browser", "node"] ∧
    (resolveWithCache fsCond (optsTarget b) [] "pkg/sub" (some "/r/app/x.js")).1 =
      .ok { path := "/r/node_modules/pkg/d.js", external := false,
            packageName := some "pkg", packageVersion := none,
            sideEffects := none } := by
  refine ⟨rfl, ?_⟩
  cases b
  · rfl
  · rfl

/-! ## C4 — resolver result stability across calls -/

/-- C4, counterexample.  The claim says a cache-hit call returns the
same `ResolveResult` as the first call, including for externals.  For
the builtin `fs`, the first call returns `external := true`, the
second (cache-hit) call returns `external := false`: the cache stores
only the path. -/
theorem c4_external_result_not_stable :
    (resolveWithCache { } optsApp [] "fs" (some "/app/x.js")).1 =
      .ok { path := "fs", external := true } ∧
    (resolveWithCache { } optsApp
        ((resolveWithCache { } optsApp [] "fs" (some "/app/x.js")).2)
        "fs" (some "/app/x.js")).1 =
      .ok { path := "fs", external := false } ∧
    (resolveWithCache { } optsApp [] "fs" (some "/app/x.js")).1 ≠
      (resolveWithCache { } optsApp
        ((resolveWithCache { } optsApp [] "fs" (some "/app/x.js")).2)
        "fs" (some "/app/x.js")).1 := by
  refine ⟨rfl, rfl, ?_⟩
  decide

/-- C4, amended: only the `path` component is stable across repeated
calls on an unchanged filesystem.  After any successful call, a
repeated call with the same `(importing file, specifier)` returns
`{ path := same path, external := false }` with no package metadata,
so full results agree exactly when the first result was a non-external
resolution without metadata. -/
theorem c4_repeat_call_returns_cached_path (fs : FS) (opts : ROpts) (cache : RCache)
    (spec : String) (fromFile : Option String) (r : ResolveResult) (c' : RCache)
    (h : resolveWithCache fs opts cache spec fromFile = (.ok r, c')) :
    (resolveWithCache fs opts c' spec fromFile).1 =
      .ok { path := r.path, external := false } :=
  resolveCached_repeat fs fs opts cache spec _ r c' h

/-- C4, witness for the amended theorem: a concrete non-external
resolution whose repeat is bit-identical to the first result. -/
theorem c4_repeat_call_returns_cached_path_witness :
    (resolveWithCache fsWithY optsApp
        ((resolveWithCache fsWithY optsApp [] "./y" (some "/app/x.js")).2)
        "./y" (some "/app/x.js")).1 =
      .ok { path := "/app/y.js", external := false } :=
  c4_repeat_call_returns_cached_path fsWithY optsApp [] "./y" (some "/app/x.js")
    { path := "/app/y.js", external := false }
    ((resolveWithCache fsWithY optsApp [] "./y" (some "/app/x.js")).2) rfl

/-! ## C10 — negative caching -/

/-- C10, confirmed.  Once a resolution has failed, every later call
with the same `(importing file, specifier)` fails from the cache
alone: the conclusion holds for *every* filesystem `fs2`, in
particular one where a matching file has since been created, and the
cache is left unchanged (nothing is re-probed or re-recorded).
`clearCache` erases everything, after which resolution behaves as with
a fresh cache. -/
theorem c10_negative_cache_persists (fs fs2 : FS) (opts : ROpts) (cache : RCache)
    (spec : String) (fromFile : Option String) (e : String) (c' : RCache)
    (h : resolveWithCache fs opts cache spec fromFile = (.error e, c')) :
    (∃ msg, resolveWithCache fs2 opts c' spec fromFile = (.error msg, c')) ∧
    resolveWithCache fs2 opts (clearCache c') spec fromFile =
      resolveWithCache fs2 opts [] spec fromFile :=
  ⟨⟨_, resolveCached_error_repeat fs fs2 opts cache spec _ e c' h⟩, rfl⟩

/-- C10, witness: `./y` fails on `fsNoY`; after `/app/y.js` is created
(`fsWithY`) the same call still fails from the negative cache, while a
cleared cache resolves it afresh. -/
theorem c10_negative_cache_persists_witness :
    ((∃ msg, resolveWithCache fsWithY optsApp
        ((resolveWithCache fsNoY optsApp [] "./y" (some "/app/x.js")).2)
        "./y" (some "/app/x.js") =
      (.error msg, (resolveWithCache fsNoY optsApp [] "./y" (some "/app/x.js")).2)) ∧
    resolveWithCache fsWithY optsApp
        (clearCache ((resolveWithCache fsNoY optsApp [] "./y" (some "/app/x.js")).2))
        "./y" (some "/app/x.js") =
      resolveWithCache fsWithY optsApp [] "./y" (some "/app/x.js")) ∧
    (resolveWithCache fsWithY optsApp [] "./y" (some "/app/x.js")).1 =
      .ok { path := "/app/y.js", external := false } :=
  ⟨c10_negative_cache_persists fsNoY fsWithY optsApp [] "./y" (some "/app/x.js")
    "Cannot resolve ./y from /app"
    ((resolveWithCache fsNoY optsApp [] "./y" (some "/app/x.js")).2) rfl, rfl⟩

/-! ## C9 — dev-server rebuild error handling -/

/-- C9, confirmed.  When an idle dev server rebuilds: a failing build
leaves `currentBundle` (the previous successful emission) unchanged
and broadcasts exactly one `error`-typed message; `currentBundle` is
replaced exactly by a succeeding build. -/
theorem c9_rebuild_keeps_bundle_on_error (st : DevState)
    (res : Except String BuildOutput)
    (getUpdates : Option BuildOutput → BuildOutput → List String) (now : Nat)
    (hidle : st.isRebuilding = false) :
    (∀ e, res = .error e →
      (rebuild st res getUpdates now).1.currentBundle = st.currentBundle ∧
      (rebuild st res getUpdates now).2 = [.errMsg e]) ∧
    (∀ nb, res = .ok nb →
      (rebuild st res getUpdates now).1.currentBundle = some nb) := by
  constructor
  · intro e he
    subst he
    simp [rebuild, hidle]
  · intro nb hnb
    subst hnb
    simp [rebuild, hidle]

/-- C9, witness: a concrete failing rebuild over a stored bundle. -/
theorem c9_rebuild_keeps_bundle_on_error_witness :
    (rebuild { currentBundle := some tinyBundle, isRebuilding := false }
        (.error "boom") (fun _ _ => []) 7).1.currentBundle = some tinyBundle ∧
    (rebuild { currentBundle := some tinyBundle, isRebuilding := false }
        (.error "boom") (fun _ _ => []) 7).2 = [.errMsg "boom"] :=
  (c9_rebuild_keeps_bundle_on_error
    { currentBundle := some tinyBundle, isRebuilding := false }
    (.error "boom") (fun _ _ => []) 7 rfl).1 "boom" rfl

/-! ## Helper lemmas for the bundler pipeline -/

/-- `addDependency` rewrites entries in place. -/
theorem addDependency_length (st : List Module) (p : String) (d : Dependency) :
    (addDependency st p d).length = st.length := by
  simp [addDependency]

/-- `addDependent` rewrites entries in place. -/
theorem addDependent_length (st : List Module) (p dep : String) :
    (addDependent st p dep).length = st.length := by
  simp [addDependent]

/-- The dependency loop never removes modules, provided the recursive
call it is given never does. -/
theorem processImportsGo_length (w : World) (mp : String)
    (recM : String → Bool → Bool → List Module → Except BuildErr (List Module))
    (hrec : ∀ p a b s s', recM p a b s = .ok s' → s.length ≤ s'.length) :
    ∀ imports st, st.length ≤ (processImportsGo w mp recM imports st).length := by
  intro imports
  induction imports with
  | nil => intro st; simp [processImportsGo]
  | cons imp rest ih =>
    intro st
    unfold processImportsGo
    refine le_trans ?_ (ih _)
    by_cases ht : imp.isTypeOnly
    · rw [if_pos ht]
    · rw [if_neg ht]
      rcases hres : w.resolve imp.source mp with _ | r
      · simp only [hres]
        exact le_rfl
      · simp only [hres]
        by_cases hext : r.external
        · rw [if_pos hext]
        · rw [if_neg hext]
          rcases hrec2 : recM r.path false imp.isDynamic
              (addDependency st mp
                { specifier := imp.source, resolved := r.path,
                  isDynamic := imp.isDynamic, isTypeOnly := imp.isTypeOnly })
            with e2 | st2
          · simp only [hrec2]
            rw [addDependency_length]
          · simp only [hrec2]
            have := hrec _ _ _ _ _ hrec2
            rw [addDependency_length] at this
            rw [addDependent_length]
            exact this

/-- `processModule` never removes modules. -/
theorem processModule_length (w : World) :
    ∀ fuel p a b st st', processModule w fuel p a b st = .ok st' → st.length ≤ st'.length := by
  intro fuel
  induction fuel with
  | zero => intro p a b st st' h; simp [processModule] at h
  | succ fuel ih =>
    intro p a b st st' h
    unfold processModule at h
    by_cases hm : (findMod st p).isSome
    · rw [if_pos hm] at h
      cases h
      exact le_rfl
    · rw [if_neg hm] at h
      rcases hfind : w.files.find? (fun f => f.1 = p) with _ | f
      · simp only [hfind] at h
        exact Except.noConfusion h
      · simp only [hfind, Except.ok.injEq] at h
        have hgo := processImportsGo_length w p
          (fun p a b s => processModule w fuel p a b s)
          (fun p a b s s' hh => ih p a b s s' hh) f.2
          (st ++ [{ path := p, imports := f.2, isEntry := a,
                    isDynamic := b, sideEffects := true }])
        rw [h] at hgo
        simp only [List.length_append, List.length_cons, List.length_nil] at hgo
        omega

/-- When the file exists, `processModule` with positive fuel cannot
fail: every failure of a dependency is caught inside the import loop. -/
theorem processModule_ok_of_exists (w : World) (fuel : Nat) (p : String) (a b : Bool)
    (st : List Module) (hf : (w.files.find? (fun f => f.1 = p)).isSome) :
    ∃ st', processModule w (fuel + 1) p a b st = .ok st' := by
  unfold processModule
  by_cases hm : (findMod st p).isSome
  · rw [if_pos hm]
    exact ⟨st, rfl⟩
  · rw [if_neg hm]
    rcases hfind : w.files.find? (fun f => f.1 = p) with _ | f
    · rw [hfind] at hf
      simp at hf
    · simp only [hfind]
      exact ⟨_, rfl⟩

/-- Membership under `addDependency` preserves the side-effect flag. -/
theorem addDependency_sideEffects (st : List Module) (p : String) (d : Dependency)
    (h : ∀ m ∈ st, m.sideEffects = true) :
    ∀ m ∈ addDependency st p d, m.sideEffects = true := by
  intro m hm
  simp only [addDependency, List.mem_map] at hm
  obtain ⟨y, hy, hmy⟩ := hm
  by_cases hp : y.path = p
  · rw [← hmy]
    simp only [hp, if_true]
    exact h y hy
  · rw [← hmy]
    simp only [hp, if_false]
    exact h y hy

/-- Membership under `addDependent` preserves the side-effect flag. -/
theorem addDependent_sideEffects (st : List Module) (p dep : String)
    (h : ∀ m ∈ st, m.sideEffects = true) :
    ∀ m ∈ addDependent st p dep, m.sideEffects = true := by
  intro m hm
  simp only [addDependent, List.mem_map] at hm
  obtain ⟨y, hy, hmy⟩ := hm
  by_cases hp : y.path = p
  · rw [← hmy]
    simp only [hp, if_true]
    exact h y hy
  · rw [← hmy]
    simp only [hp, if_false]
    exact h y hy

/-- The dependency loop only ever stores side-effect flags `true`,
provided the recursive call it is given does. -/
theorem processImportsGo_sideEffects (w : World) (mp : String)
    (recM : String → Bool → Bool → List Module → Except BuildErr (List Module))
    (hrec : ∀ p a b s s', recM p a b s = .ok s' →
      (∀ m ∈ s, m.sideEffects = true) → ∀ m ∈ s', m.sideEffects = true) :
    ∀ imports st, (∀ m ∈ st, m.sideEffects = true) →
      ∀ m ∈ processImportsGo w mp recM imports st, m.sideEffects = true := by
  intro imports
  induction imports with
  | nil => intro st h; simpa [processImportsGo] using h
  | cons imp rest ih =>
    intro st h
    unfold processImportsGo
    apply ih
    by_cases ht : imp.isTypeOnly
    · rw [if_pos ht]
      exact h
    · rw [if_neg ht]
      rcases hres : w.resolve imp.source mp with _ | r
      · simp only [hres]
        exact h
      · simp only [hres]
        by_cases hext : r.external
        · rw [if_pos hext]
          exact h
        · rw [if_neg hext]
          have h1 := addDependency_sideEffects st mp
            { specifier := imp.source, resolved := r.path,
              isDynamic := imp.isDynamic, isTypeOnly := imp.isTypeOnly } h
          rcases hrec2 : recM r.path false imp.isDynamic
              (addDependency st mp
                { specifier := imp.source, resolved := r.path,
                  isDynamic := imp.isDynamic, isTypeOnly := imp.isTypeOnly })
            with e2 | st2
          · simp only [hrec2]
            exact h1
          · simp only [hrec2]
            exact addDependent_sideEffects st2 r.path mp (hrec _ _ _ _ _ hrec2 h1)

/-- Every module `processModule` ever stores carries
`sideEffects = true` (the source writes the literal under its
`TODO: check package.json`). -/
theorem processModule_sideEffects (w : World) :
    ∀ fuel p a b st st', processModule w fuel p a b st = .ok st' →
      (∀ m ∈ st, m.sideEffects = true) → ∀ m ∈ st', m.sideEffects = true := by
  intro fuel
  induction fuel with
  | zero => intro p a b st st' h; simp [processModule] at h
  | succ fuel ih =>
    intro p a b st st' h hst
    unfold processModule at h
    by_cases hm : (findMod st p).isSome
    · simp only [hm, if_true, Except.ok.injEq] at h
      rw [← h]
      exact hst
    · rcases hfind : w.files.find? (fun f => f.1 = p) with _ | f
      · rw [hfind] at h
        simp [hm] at h
      · rw [hfind] at h
        simp only [hm, if_false, Except.ok.injEq, Bool.false_eq_true] at h
        rw [← h]
        apply processImportsGo_sideEffects w p
          (fun p a b s => processModule w fuel p a b s)
          (fun p a b s s' hh => ih p a b s s' hh)
        intro m hmem
        rcases List.mem_append.mp hmem with hl | hr
        · exact hst m hl
        · simp only [List.mem_singleton] at hr
          rw [hr]

/-- The whole graph of a successful `buildGraph` carries
`sideEffects = true`, and it contains at least as many modules as
entries were successfully folded in. -/
theorem buildGraph_aux (w : World) :
    ∀ (entries : List String) (st : List Module),
      (∀ e ∈ entries, (w.files.find? (fun f => f.1 = e)).isSome) →
      (∀ m ∈ st, m.sideEffects = true) →
      ∃ st', (entries.foldlM
          (fun st e => processModule w (bundlerFuel w) e true false st) st) = .ok st' ∧
        st.length ≤ st'.length ∧ (∀ m ∈ st', m.sideEffects = true) := by
  intro entries
  induction entries with
  | nil => intro st _ hse; exact ⟨st, rfl, le_refl _, hse⟩
  | cons e rest ih =>
    intro st hex hse
    obtain ⟨st1, hst1⟩ :=
      processModule_ok_of_exists w w.files.length e true false st
        (hex e (by simp))
    have hlen1 := processModule_length w _ _ _ _ _ _ hst1
    have hse1 := processModule_sideEffects w _ _ _ _ _ _ hst1 hse
    obtain ⟨st', hfold, hlen2, hse2⟩ := ih st1 (fun x hx => hex x (by simp [hx])) hse1
    refine ⟨st', ?_, le_trans hlen1 hlen2, hse2⟩
    rw [List.foldlM_cons]
    show (processModule w (bundlerFuel w) e true false st) >>= _ = .ok st'
    have : bundlerFuel w = w.files.length + 1 := rfl
    rw [this, hst1]
    exact hfold

/-- With every stored flag `true`, the deletion loop of `treeShake`
never fires: the module map is returned unchanged. -/
theorem treeShake_of_all_side_effects (mods : List Module)
    (h : ∀ m ∈ mods, m.sideEffects = true) : treeShake mods = mods := by
  unfold treeShake
  apply List.filter_eq_self.mpr
  intro m hm
  simp [h m hm]

/-- `setChunk` rewrites entries in place. -/
theorem setChunk_length (st : List Module) (p c : String) :
    (setChunk st p c).length = st.length := by
  simp [setChunk]

/-- One chunk-propagation pass rewrites entries in place. -/
theorem assignPass_length (mods : List Module) :
    (assignPass mods).length = mods.length := by
  unfold assignPass
  generalize mods.map Module.path = ps
  induction ps generalizing mods with
  | nil => simp
  | cons p rest ih =>
    rw [List.foldl_cons]
    rcases hfm : findMod mods p with _ | m
    · rw [ih]
    · by_cases hc : m.chunk.isSome
      · simp only [hc, if_true]
        rw [ih]
      · simp only [hc, if_false, Bool.false_eq_true]
        rcases hd : (m.dependents.filterMap
            (fun dp => (findMod mods dp).bind Module.chunk)).head? with _ | c
        · rw [ih]
        · rw [ih, setChunk_length]

/-- The propagation loop rewrites entries in place. -/
theorem assignLoop_length (fuel : Nat) (mods : List Module) :
    (assignLoop fuel mods).length = mods.length := by
  induction fuel generalizing mods with
  | zero => rfl
  | succ fuel ih =>
    unfold assignLoop
    by_cases h : assignedCount (assignPass mods) = assignedCount mods
    · simp [h]
    · simp only [h, if_false]
      rw [ih, assignPass_length]

/-- `splitCode` rewrites entries in place. -/
theorem splitCode_length (mods : List Module) :
    (splitCode mods).length = mods.length := by
  unfold splitCode
  simp [assignLoop_length, assignPass_length]

/-- `createSingleChunk` rewrites entries in place. -/
theorem createSingleChunk_length (mods : List Module) :
    (createSingleChunk mods).length = mods.length := by
  simp [createSingleChunk]

/-- Grouping a non-empty module list yields at least one group. -/
theorem groupByChunk_ne_nil (mods : List Module) (h : mods ≠ []) :
    groupByChunk mods ≠ [] := by
  unfold groupByChunk
  rcases mods with _ | ⟨m, rest⟩
  · exact absurd rfl h
  · rw [List.foldl_cons]
    have step_ne : ∀ (acc : List (String × List Module)) (x : Module),
        acc ≠ [] →
        (fun (acc : List (String × List Module)) (x : Module) =>
          let cid := x.chunk.getD "main"
          if (acc.find? (fun g => g.1 = cid)).isSome then
            acc.map (fun g => if g.1 = cid then (g.1, g.2 ++ [x]) else g)
          else acc ++ [(cid, [x])]) acc x ≠ [] := by
      intro acc x hacc
      by_cases hf : (acc.find? (fun g => g.1 = x.chunk.getD "main")).isSome
      · simpa [hf] using hacc
      · simp [hf]
    have fold_ne : ∀ (l : List Module) (acc : List (String × List Module)),
        acc ≠ [] →
        l.foldl (fun acc x =>
          let cid := x.chunk.getD "main"
          if (acc.find? (fun g => g.1 = cid)).isSome then
            acc.map (fun g => if g.1 = cid then (g.1, g.2 ++ [x]) else g)
          else acc ++ [(cid, [x])]) acc ≠ [] := by
      intro l
      induction l with
      | nil => intro acc hacc; simpa using hacc
      | cons x xs ih =>
        intro acc hacc
        rw [List.foldl_cons]
        exact ih _ (step_ne acc x hacc)
    apply fold_ne
    simp

/-! ## C2 — build failure on unresolved imports -/

/-- C2, counterexample.  The claim says a one-shot build with a
non-type-only import that fails to resolve fails the whole build and
produces no chunks.  `wUnresolved`'s entry has exactly such an import;
the build succeeds, emits a chunk, and silently drops the edge
(`dependencies` stays empty while `imports` records the specifier). -/
theorem c2_unresolved_import_build_succeeds :
    build wUnresolved { entries := ["/p/main.js"] } =
      .ok { chunks := [{ id := "entry-/p/main.js", name := "index",
                         modulePaths := ["/p/main.js"],
                         isEntry := true, isDynamic := false }],
            modules := [{ path := "/p/main.js",
                          imports := [{ source := "./missing" }],
                          isEntry := true,
                          chunk := some "entry-/p/main.js" }] } ∧
    ∀ out, build wUnresolved { entries := ["/p/main.js"] } = .ok out →
      out.chunks ≠ [] := by
  refine ⟨rfl, ?_⟩
  intro out hout
  cases hout
  decide

/-- C2, amended: only a failure while loading an *entry* module aborts
`Bundler.build`.  A failing resolution (or load) of a non-entry import
is caught, logged as a warning and skipped, so whenever every entry
file exists the build returns successfully and emits chunks — whatever
the resolver does on the imports. -/
theorem c2_nonentry_failures_do_not_abort (w : World) (entries : List String)
    (ts sp : Bool) (hne : entries ≠ [])
    (hex : ∀ e ∈ entries, (w.files.find? (fun f => f.1 = e)).isSome) :
    ∃ out, build w { entries := entries, treeshake := ts, splitting := sp } = .ok out ∧
      out.chunks ≠ [] := by
  obtain ⟨st', hfold, hlen, hse⟩ := buildGraph_aux w entries [] hex (by simp)
  have hbg : buildGraph w entries = .ok st' := hfold
  have hstne : st' ≠ [] := by
    rcases entries with _ | ⟨e, rest⟩
    · exact absurd rfl hne
    · intro hnil
      obtain ⟨st1, hst1⟩ :=
        processModule_ok_of_exists w w.files.length e true false []
          (hex e (by simp))
      have h1 : 1 ≤ st1.length := by
        unfold processModule at hst1
        simp only [findMod, List.find?_nil, Option.isSome_none, if_false,
          Bool.false_eq_true] at hst1
        rcases hfind : w.files.find? (fun f => f.1 = e) with _ | f
        · rw [hfind] at hst1
          simp at hst1
        · rw [hfind] at hst1
          simp only [Except.ok.injEq] at hst1
          have hgo := processImportsGo_length w e
            (fun p a b s => processModule w w.files.length p a b s)
            (fun p a b s s' hh => processModule_length w _ p a b s s' hh) f.2
            ([] ++ [{ path := e, imports := f.2, isEntry := true,
                      isDynamic := false, sideEffects := true }])
          rw [hst1] at hgo
          simpa using hgo
      have hchain : st1.length ≤ st'.length := by
        obtain ⟨st'', hfold2, hlen2, _⟩ :=
          buildGraph_aux w rest st1 (fun x hx => hex x (by simp [hx]))
            (processModule_sideEffects w _ _ _ _ _ _ hst1 (by simp))
        have : buildGraph w (e :: rest) = .ok st'' := by
          unfold buildGraph
          rw [List.foldlM_cons]
          show (processModule w (bundlerFuel w) e true false []) >>= _ = .ok st''
          have hbf : bundlerFuel w = w.files.length + 1 := rfl
          rw [hbf, hst1]
          exact hfold2
        rw [hbg] at this
        cases this
        exact hlen2
      rw [hnil] at hchain
      simp only [List.length_nil, Nat.le_zero] at hchain
      omega
  have hts : (if ts then treeShake st' else st') = st' := by
    by_cases h : ts
    · simp [h, treeShake_of_all_side_effects st' hse]
    · simp [h]
  have hbuild : build w { entries := entries, treeshake := ts, splitting := sp } =
      .ok { chunks := generateChunks
              (if sp then splitCode st' else createSingleChunk st'),
            modules := if sp then splitCode st' else createSingleChunk st' } := by
    unfold build
    rw [hbg]
    simp only [hts]
  refine ⟨_, hbuild, ?_⟩
  show generateChunks (if sp then splitCode st' else createSingleChunk st') ≠ []
  unfold generateChunks
  intro hmap
  apply groupByChunk_ne_nil _ ?_ (List.map_eq_nil_iff.mp hmap)
  by_cases h : sp
  · simp only [h, if_true]
    intro hnil
    have := splitCode_length st'
    rw [hnil] at this
    simp only [List.length_nil] at this
    exact hstne (List.length_eq_zero.mp this.symm)
  · simp only [h, if_false, Bool.false_eq_true]
    intro hnil
    have := createSingleChunk_length st'
    rw [hnil] at this
    simp only [List.length_nil] at this
    exact hstne (List.length_eq_zero.mp this.symm)

/-- C2, witness for the amended theorem: a two-module world builds
successfully with a chunk. -/
theorem c2_nonentry_failures_do_not_abort_witness :
    ∃ out, build wTwo { entries := ["/p/main.js"], treeshake := true,
                        splitting := true } = .ok out ∧ out.chunks ≠ [] :=
  c2_nonentry_failures_do_not_abort wTwo ["/p/main.js"] true true
    (by decide) (by decide)

/-! ## C3 — side-effect flag and tree shaking -/

/-- C3: the code contradicts the claim (and its own `TODO`).  The
resolver hands the bundler a descriptor with `sideEffects: false` for
`/p/u.js`; the stored module still carries `sideEffects = true`, and
the tree-shaken module set is identical to the unshaken one — no
module is ever removed. -/
theorem c3_side_effect_flag_ignores_descriptor :
    wSideEff.resolve "./u.js" "/p/main.js" =
      some { path := "/p/u.js", external := false, sideEffects := some false } ∧
    ((build wSideEff { entries := ["/p/main.js"] }).toOption.bind
        (fun out => (findMod out.modules "/p/u.js").map Module.sideEffects)) =
      some true ∧
    (build wSideEff { entries := ["/p/main.js"], treeshake := true }).map
        BuildOutput.modules =
      (build wSideEff { entries := ["/p/main.js"], treeshake := false }).map
        BuildOutput.modules :=
  ⟨rfl, rfl, rfl⟩

/-! ## C6 — compile-time `define` substitution -/

/-- C6, counterexample.  The claim says `define` substitution respects
token boundaries and never touches string literals or comments.  The
transform is a plain global regex replacement: it rewrites the
occurrence inside the string literal and the line comment, and the
one inside the longer identifier `DEBUGGER`. -/
theorem c6_defines_replace_in_strings_and_comments :
    applyDefinesStr [("DEBUG", "false")] "const s = \"DEBUG\"; // DEBUG" =
      "const s = \"false\"; // false" ∧
    applyDefinesStr [("DEBUG", "0")] "let DEBUGGER = 1" = "let 0GER = 1" :=
  ⟨rfl, rfl⟩

/-- `leadChars` is the prefix relation. -/
theorem leadChars_iff (p : List Char) :
    ∀ s, leadChars p s = true ↔ ∃ t, p ++ t = s := by
  induction p with
  | nil => intro s; simp [leadChars]
  | cons a as ih =>
    intro s
    cases s with
    | nil =>
      simp [leadChars]
    | cons b bs =>
      simp only [leadChars, Bool.and_eq_true, decide_eq_true_eq, ih bs]
      constructor
      · rintro ⟨hab, t, ht⟩
        exact ⟨t, by rw [hab, List.cons_append, ht]⟩
      · rintro ⟨t, ht⟩
        rw [List.cons_append] at ht
        injection ht with h1 h2
        exact ⟨h1, t, h2⟩

/-- A list is a prefix of itself followed by anything. -/
theorem leadChars_append_self (p t : List Char) : leadChars p (p ++ t) = true :=
  (leadChars_iff p (p ++ t)).mpr ⟨t, rfl⟩

/-- A prefix shorter than the left part of an append is a prefix of
that left part. -/
theorem leadChars_of_append (k : List Char) :
    ∀ X Y, leadChars k (X ++ Y) = true → k.length ≤ X.length →
      leadChars k X = true := by
  induction k with
  | nil => intro X Y _ _; simp [leadChars]
  | cons a as ih =>
    intro X Y h hlen
    cases X with
    | nil => simp at hlen
    | cons b bs =>
      rw [List.cons_append] at h
      simp only [leadChars, Bool.and_eq_true] at h ⊢
      exact ⟨h.1, ih bs Y h.2 (by simpa using hlen)⟩

/-- Fuel above the scanned length is irrelevant to `replaceAllF`. -/
theorem replaceAllF_irrel (k v : List Char) :
    ∀ n fuel1 fuel2 s, s.length = n → n ≤ fuel1 → n ≤ fuel2 →
      replaceAllF k v fuel1 s = replaceAllF k v fuel2 s := by
  intro n
  induction n using Nat.strong_induction_on with
  | _ n ih =>
    intro fuel1 fuel2 s hn h1 h2
    cases s with
    | nil =>
      cases fuel1 with
      | zero =>
        cases fuel2 with
        | zero => rfl
        | succ f2 =>
          show ([] : List Char) = replaceAllF k v (f2 + 1) []
          unfold replaceAllF
          by_cases hc : k ≠ [] ∧ leadChars k [] = true
          · rcases k with _ | ⟨a, as⟩
            · exact absurd rfl hc.1
            · simp [leadChars] at hc
          · rw [if_neg hc]
      | succ f1 =>
        cases fuel2 with
        | zero =>
          show replaceAllF k v (f1 + 1) [] = []
          unfold replaceAllF
          by_cases hc : k ≠ [] ∧ leadChars k [] = true
          · rcases k with _ | ⟨a, as⟩
            · exact absurd rfl hc.1
            · simp [leadChars] at hc
          · rw [if_neg hc]
        | succ f2 =>
          show replaceAllF k v (f1 + 1) [] = replaceAllF k v (f2 + 1) []
          unfold replaceAllF
          by_cases hc : k ≠ [] ∧ leadChars k [] = true
          · rcases k with _ | ⟨a, as⟩
            · exact absurd rfl hc.1
            · simp [leadChars] at hc
          · rw [if_neg hc, if_neg hc]
    | cons c rest =>
      subst hn
      cases fuel1 with
      | zero => simp at h1
      | succ f1 =>
        cases fuel2 with
        | zero => simp at h2
        | succ f2 =>
          show replaceAllF k v (f1 + 1) (c :: rest) = replaceAllF k v (f2 + 1) (c :: rest)
          unfold replaceAllF
          by_cases hc : k ≠ [] ∧ leadChars k (c :: rest) = true
          · rw [if_pos hc, if_pos hc]
            have hkpos : 0 < k.length := List.length_pos.mpr hc.1
            have hdl : ((c :: rest).drop k.length).length = (c :: rest).length - k.length :=
              List.length_drop _ _
            refine congrArg (v ++ ·) (ih ((c :: rest).drop k.length).length ?_ f1 f2 _ rfl ?_ ?_)
            · rw [hdl]
              simp only [List.length_cons]
              omega
            · rw [hdl]
              simp only [List.length_cons] at h1 ⊢
              omega
            · rw [hdl]
              simp only [List.length_cons] at h2 ⊢
              omega
          · rw [if_neg hc, if_neg hc]
            refine congrArg (c :: ·) (ih rest.length ?_ f1 f2 rest rfl ?_ ?_)
            · simp only [List.length_cons]
              omega
            · simp only [List.length_cons] at h1
              omega
            · simp only [List.length_cons] at h2
              omega

/-- `replaceAllF` at sufficient fuel computes `replaceAllChars`. -/
theorem replaceAllF_eq_chars (k v : List Char) (fuel : Nat) (s : List Char)
    (h : s.length ≤ fuel) : replaceAllF k v fuel s = replaceAllChars k v s :=
  replaceAllF_irrel k v s.length fuel s.length s rfl h le_rfl

/-- C6, amended: the `define` substitution is a plain global
left-to-right textual replacement.  Wherever the leftmost occurrence
of the key sits — inside a string literal, a comment, or a longer
identifier, since `a` is arbitrary — it is replaced and scanning
continues after the replacement; no token-boundary, read-position,
string or comment check intervenes. -/
theorem c6_defines_replace_any_occurrence (k v a b : List Char)
    (hk : k ≠ []) (hno : occursIn k (a ++ k.dropLast) = false) :
    replaceAllChars k v (a ++ (k ++ b)) = a ++ (v ++ replaceAllChars k v b) := by
  induction a with
  | nil =>
    simp only [List.nil_append]
    show replaceAllF k v (k ++ b).length (k ++ b) = v ++ replaceAllChars k v b
    rcases hk2 : k with _ | ⟨c, k2⟩
    · exact absurd hk2 hk
    · rw [← hk2]
      have hlen : (k ++ b).length = (k2 ++ b).length + 1 := by
        rw [hk2]; simp
      rw [hlen]
      unfold replaceAllF
      rw [if_pos ⟨hk, leadChars_append_self k b⟩]
      have hdrop : (k ++ b).drop k.length = b := List.drop_left k b
      rw [hdrop]
      refine congrArg (v ++ ·) (replaceAllF_eq_chars k v _ b ?_)
      simp only [List.length_append]
      omega
  | cons c a2 ih =>
    have hnotlead : leadChars k ((c :: a2) ++ (k ++ b)) = false := by
      by_contra hcon
      rw [Bool.not_eq_false] at hcon
      have hkpos : 0 < k.length := List.length_pos.mpr hk
      have hdec : k.dropLast ++ [k.getLast hk] = k := List.dropLast_append_getLast hk
      have hsplit : (c :: a2) ++ (k ++ b) =
          ((c :: a2) ++ k.dropLast) ++ (k.getLast hk :: b) := by
        conv_lhs => rw [← hdec]
        simp [List.append_assoc]
      rw [hsplit] at hcon
      have hlcut := leadChars_of_append k ((c :: a2) ++ k.dropLast) (k.getLast hk :: b)
        hcon (by simp only [List.length_append, List.length_cons, List.length_dropLast]; omega)
      have : occursIn k ((c :: a2) ++ k.dropLast) = true := by
        rw [List.cons_append] at hlcut ⊢
        unfold occursIn
        rw [hlcut]
        simp
      rw [List.cons_append] at hno
      rw [List.cons_append] at this
      rw [hno] at this
      exact Bool.noConfusion this
    show replaceAllF k v ((c :: a2) ++ (k ++ b)).length ((c :: a2) ++ (k ++ b)) = _
    have hlen : ((c :: a2) ++ (k ++ b)).length = (a2 ++ (k ++ b)).length + 1 := by simp
    rw [hlen, List.cons_append]
    unfold replaceAllF
    rw [if_neg (by rw [List.cons_append] at hnotlead; simp [hnotlead])]
    have hno2 : occursIn k (a2 ++ k.dropLast) = false := by
      rw [List.cons_append] at hno
      unfold occursIn at hno
      exact (Bool.or_eq_false_iff.mp hno).2
    show (c :: replaceAllF k v (a2 ++ (k ++ b)).length (a2 ++ (k ++ b))) = _
    have hrec : replaceAllF k v (a2 ++ (k ++ b)).length (a2 ++ (k ++ b)) =
        replaceAllChars k v (a2 ++ (k ++ b)) := rfl
    rw [hrec, ih hno2]
    simp

/-- C6, witness for the amended theorem: the key occurring just after
an opening quote, i.e. inside a string literal, is replaced. -/
theorem c6_defines_replace_any_occurrence_witness :
    ("DEBUG".data ≠ [] ∧ occursIn "DEBUG".data ("s = \"".data ++ "DEBUG".data.dropLast) = false) ∧
    replaceAllChars "DEBUG".data "0".data ("s = \"".data ++ ("DEBUG".data ++ "\"".data)) =
      "s = \"".data ++ ("0".data ++ replaceAllChars "DEBUG".data "0".data "\"".data) :=
  ⟨⟨by decide, by decide⟩,
    c6_defines_replace_any_occurrence "DEBUG".data "0".data "s = \"".data "\"".data
      (by decide) (by decide)⟩

/-! ## C8 — top-level-await detection -/

/-- Every tree has positive size. -/
theorem tsSize_pos (t : TsNode) : 0 < tsSize t := by
  cases t with
  | node k cs =>
    rw [tsSize]
    omega

/-- A member of a forest is no bigger than the forest. -/
theorem tsSize_le_of_mem : ∀ (cs : List TsNode) (c : TsNode), c ∈ cs →
    tsSize c ≤ tsSizeList cs := by
  intro cs
  induction cs with
  | nil => intro c hc; simp at hc
  | cons x xs ih =>
    intro c hc
    rw [tsSizeList]
    rcases List.mem_cons.mp hc with h | h
    · rw [h]
      omega
    · have := ih c h
      omega

/-- The fuelled walk, at sufficient fuel, is the declarative
witness relation. -/
theorem tlaWalkF_iff_witness :
    ∀ fuel t, tsSize t ≤ fuel → (tlaWalkF fuel t = true ↔ TlaWitness t) := by
  intro fuel
  induction fuel with
  | zero =>
    intro t ht
    have := tsSize_pos t
    omega
  | succ fuel ih =>
    intro t ht
    cases t with
    | node k cs =>
      by_cases hk : k = NodeKind.awaitExpr
      · subst hk
        simp only [tlaWalkF, if_pos rfl]
        exact ⟨fun _ => TlaWitness.here cs, fun _ => rfl⟩
      · by_cases hs : stopsWalk k
        · rw [show tlaWalkF (fuel + 1) (.node k cs) = false by
            unfold tlaWalkF
            rw [if_neg hk, if_pos hs]]
          constructor
          · intro hf
            exact Bool.noConfusion hf
          · intro hw
            cases hw with
            | here cs => exact absurd rfl hk
            | through k cs c hstop hc hcw => rw [hstop] at hs; exact Bool.noConfusion hs
        · rw [show tlaWalkF (fuel + 1) (.node k cs) = cs.any (fun c => tlaWalkF fuel c) by
            simp only [tlaWalkF]
            rw [if_neg hk, if_neg hs]]
          rw [tsSize] at ht
          constructor
          · intro hany
            obtain ⟨c, hc, hcw⟩ := List.any_eq_true.mp hany
            refine TlaWitness.through k cs c (Bool.not_eq_true _ ▸ hs) hc ?_
            exact (ih c (by have := tsSize_le_of_mem cs c hc; omega)).mp hcw
          · intro hw
            cases hw with
            | here cs => exact absurd rfl hk
            | through k cs c hstop hc hcw =>
              exact List.any_eq_true.mpr
                ⟨c, hc, (ih c (by have := tsSize_le_of_mem cs c hc; omega)).mpr hcw⟩

/-- C8, counterexample.  The claim says the flag is set exactly for an
`await` whose nearest enclosing function — accessors included — is the
module itself.  For an `await` inside a class getter (no other
enclosing function), the source's walk sets the flag although the
nearest enclosing function is the getter: the walk's stop list has
only function declarations/expressions, arrows and methods. -/
theorem c8_accessor_await_sets_flag :
    parseTLA stmtsAccessor = true ∧ specTLA stmtsAccessor = false ∧
    parseTLA stmtsAccessor ≠ specTLA stmtsAccessor :=
  ⟨rfl, rfl, by decide⟩

/-- C8, amended: `hasTopLevelAwait` is set exactly when some `await`
expression has no ancestor that is a function declaration, function
expression, arrow function or method declaration — those four kinds
only; accessors and constructors are not walk boundaries. -/
theorem c8_tla_flag_characterization (stmts : List TsNode) :
    parseTLA stmts = true ↔ ∃ t ∈ stmts, TlaWitness t := by
  unfold parseTLA
  rw [List.any_eq_true]
  constructor
  · rintro ⟨t, ht, hw⟩
    exact ⟨t, ht, (tlaWalkF_iff_witness (tsSize t) t le_rfl).mp hw⟩
  · rintro ⟨t, ht, hw⟩
    exact ⟨t, ht, (tlaWalkF_iff_witness (tsSize t) t le_rfl).mpr hw⟩

/-! ## C7 — topological sort: supporting lemmas -/

/-- `Grows` is reflexive. -/
theorem grows_refl (st : List String × List Module) : Grows st st :=
  ⟨[], by simp, by simp⟩

/-- `Grows` composes. -/
theorem grows_trans {a b c : List String × List Module}
    (h1 : Grows a b) (h2 : Grows b c) : Grows a c := by
  obtain ⟨d1, h1a, h1b⟩ := h1
  obtain ⟨d2, h2a, h2b⟩ := h2
  refine ⟨d1 ++ d2, ?_, ?_⟩
  · rw [h2a, h1a, List.append_assoc]
  · rw [h2b, h1b]
    simp [List.append_assoc]

/-- Membership in the first component persists under growth. -/
theorem grows_mem_vis {a b : List String × List Module} (h : Grows a b)
    {p : String} (hp : p ∈ a.1) : p ∈ b.1 := by
  obtain ⟨d, _, hb⟩ := h
  rw [hb]
  exact List.mem_append_right _ hp

/-- One step of the remaining-path count. -/
theorem kRem_cons_step (V : List String) (a : String) (l : List String) :
    kRem (a :: l) V = if a ∈ V then kRem l V else kRem l V + 1 := by
  unfold kRem
  by_cases h : a ∈ V
  · rw [if_pos h]
    simp [List.filter_cons, h]
  · rw [if_neg h]
    simp [List.filter_cons, h]

/-- Extending the stack never enlarges the remaining-path count. -/
theorem kRem_cons_le (paths V : List String) (p : String) :
    kRem paths (p :: V) ≤ kRem paths V := by
  induction paths with
  | nil => exact Nat.le_refl _
  | cons a l ih =>
    rw [kRem_cons_step, kRem_cons_step]
    by_cases hV : a ∈ V
    · rw [if_pos hV, if_pos (List.mem_cons_of_mem p hV)]
      exact ih
    · rw [if_neg hV]
      by_cases hap : a = p
      · rw [if_pos (by rw [hap]; exact List.mem_cons_self p V)]
        omega
      · rw [if_neg (by
          intro hc
          rcases List.mem_cons.mp hc with hc | hc
          exacts [hap hc, hV hc])]
        omega

/-- Pushing an uncovered chunk path strictly shrinks the
remaining-path count. -/
theorem kRem_cons_lt (paths V : List String) (p : String)
    (hp : p ∈ paths) (hpv : ¬ p ∈ V) :
    kRem paths (p :: V) < kRem paths V := by
  induction paths with
  | nil => simp at hp
  | cons a l ih =>
    rw [kRem_cons_step, kRem_cons_step]
    by_cases hap : a = p
    · rw [if_pos (by rw [hap]; exact List.mem_cons_self p V),
        if_neg (by rw [hap]; exact hpv)]
      have := kRem_cons_le l V p
      omega
    · have hpl : p ∈ l := by
        rcases List.mem_cons.mp hp with hc | hc
        · exact absurd hc.symm hap
        · exact hc
      by_cases hV : a ∈ V
      · rw [if_pos (List.mem_cons_of_mem p hV), if_pos hV]
        exact ih hpl
      · rw [if_neg (by
          intro hc
          rcases List.mem_cons.mp hc with hc | hc
          exacts [hap hc, hV hc]), if_neg hV]
        have := ih hpl
        omega

/-- A filter keeps at most the whole list. -/
theorem kRem_nil_le (paths : List String) : kRem paths [] ≤ paths.length :=
  List.length_filter_le _ _

/-- Two chunk modules with the same path are equal when the chunk's
paths have no duplicates. -/
theorem path_inj (chunk : List Module) (hnodup : (chunk.map Module.path).Nodup)
    (B C : Module) (hB : B ∈ chunk) (hC : C ∈ chunk) (h : B.path = C.path) : B = C :=
  List.inj_on_of_nodup_map hnodup hB hC h

/-- Splitting a list that ends in a singleton. -/
theorem append_singleton_split {α : Type} (l : List α) (x : α) (xs ys : List α) (A : α)
    (h : l ++ [x] = xs ++ A :: ys) :
    (ys = [] ∧ xs = l ∧ A = x) ∨ ∃ ys0, ys = ys0 ++ [x] ∧ l = xs ++ A :: ys0 := by
  rcases List.eq_nil_or_concat ys with hnil | ⟨ys0, y, hy⟩
  · subst hnil
    have h2 := List.append_inj' h (by rfl :
      ([x] : List α).length = ([A] : List α).length)
    obtain ⟨hl, hx⟩ := h2
    exact Or.inl ⟨rfl, hl.symm, (List.cons_eq_cons.mp hx).1.symm⟩
  · have hy' : ys = ys0 ++ [y] := by rw [hy, List.concat_eq_append]
    subst hy'
    have hre : xs ++ A :: (ys0 ++ [y]) = (xs ++ A :: ys0) ++ [y] := by
      simp
    rw [hre] at h
    have h2 := List.append_inj' h (by rfl :
      ([x] : List α).length = ([y] : List α).length)
    obtain ⟨hl, hx⟩ := h2
    have hxy : x = y := (List.cons_eq_cons.mp hx).1
    exact Or.inr ⟨ys0, by rw [hxy], hl⟩

/-- Index of the distinguished occurrence in a split list. -/
theorem indexOf_append_cons_self {α : Type} [DecidableEq α] :
    ∀ (xs : List α) (A : α) (ys : List α), A ∉ xs →
      (xs ++ A :: ys).indexOf A = xs.length := by
  intro xs
  induction xs with
  | nil => intro A ys _; simp
  | cons x xs' ih =>
    intro A ys hA
    have hx : x ≠ A := fun hc => hA (hc ▸ List.mem_cons_self x xs')
    rw [List.cons_append, List.indexOf_cons_ne _ hx,
      ih A ys (fun hc => hA (List.mem_cons_of_mem x hc))]
    rfl

/-- The index of an element of the prefix is its index there. -/
theorem indexOf_append_left {α : Type} [DecidableEq α] :
    ∀ (xs rest : List α) (B : α), B ∈ xs →
      (xs ++ rest).indexOf B = xs.indexOf B := by
  intro xs
  induction xs with
  | nil => intro rest B hB; simp at hB
  | cons x xs' ih =>
    intro rest B hB
    by_cases hx : x = B
    · subst hx
      simp [List.indexOf_cons_self]
    · have hB' : B ∈ xs' := by
        rcases List.mem_cons.mp hB with h | h
        · exact absurd h.symm hx
        · exact h
      rw [List.cons_append, List.indexOf_cons_ne _ hx, List.indexOf_cons_ne _ hx,
        ih rest B hB']

/-- The DFS loop over dependencies only appends, given that the
recursive call only appends. -/
theorem visitDepsGo_grows (all chunk : List Module)
    (recV : Module → List String → List String × List Module → List String × List Module)
    (hrec : ∀ dm vis s, Grows s (recV dm vis s)) :
    ∀ deps vis st, Grows st (visitDepsGo all chunk recV deps vis st) := by
  intro deps
  induction deps with
  | nil => intro vis st; exact grows_refl st
  | cons d rest ih =>
    intro vis st
    unfold visitDepsGo
    refine grows_trans ?_ (ih vis _)
    rcases hf : findMod all d.resolved with _ | dm
    · simp only [hf]
      exact grows_refl st
    · simp only [hf]
      by_cases hdm : dm ∈ chunk
      · rw [if_pos hdm]
        exact hrec dm vis st
      · rw [if_neg hdm]
        exact grows_refl st

/-- `visit` only appends to the DFS state. -/
theorem visitF_grows (all chunk : List Module) :
    ∀ fuel m vis st, Grows st (visitF all chunk fuel m vis st) := by
  intro fuel
  induction fuel with
  | zero => intro m vis st; exact grows_refl st
  | succ fuel ih =>
    intro m vis st
    unfold visitF
    by_cases h1 : m.path ∈ st.1
    · rw [if_pos h1]
      exact grows_refl st
    · rw [if_neg h1]
      by_cases h2 : m.path ∈ vis
      · rw [if_pos h2]
        exact grows_refl st
      · rw [if_neg h2]
        obtain ⟨Δ, ha, hb⟩ := visitDepsGo_grows all chunk _
          (fun dm vis s => ih dm vis s) m.dependencies (m.path :: vis) st
        refine ⟨Δ ++ [m], ?_, ?_⟩
        · show _ ++ [m] = st.2 ++ (Δ ++ [m])
          rw [ha, List.append_assoc]
        · show m.path :: _ = ((Δ ++ [m]).map Module.path).reverse ++ st.1
          rw [hb]
          simp

/-- Paths already on the `visiting` stack are never pushed to
`visited` by the dependency loop, given the recursive call behaves so. -/
theorem visitDepsGo_no_new_vis (all chunk : List Module)
    (recV : Module → List String → List String × List Module → List String × List Module)
    (hrec : ∀ dm vis s p, p ∈ vis → p ∈ (recV dm vis s).1 → p ∈ s.1) :
    ∀ deps vis st p, p ∈ vis →
      p ∈ (visitDepsGo all chunk recV deps vis st).1 → p ∈ st.1 := by
  intro deps
  induction deps with
  | nil => intro vis st p _ h; exact h
  | cons d rest ih =>
    intro vis st p hp h
    unfold visitDepsGo at h
    rcases hf : findMod all d.resolved with _ | dm
    · simp only [hf] at h
      exact ih vis st p hp h
    · simp only [hf] at h
      by_cases hdm : dm ∈ chunk
      · rw [if_pos hdm] at h
        exact hrec dm vis st p hp (ih vis _ p hp h)
      · rw [if_neg hdm] at h
        exact ih vis st p hp h

/-- Paths already on the `visiting` stack are never pushed to
`visited` by `visit`. -/
theorem visitF_no_new_vis (all chunk : List Module) :
    ∀ fuel m vis st p, p ∈ vis →
      p ∈ (visitF all chunk fuel m vis st).1 → p ∈ st.1 := by
  intro fuel
  induction fuel with
  | zero => intro m vis st p _ h; exact h
  | succ fuel ih =>
    intro m vis st p hp h
    unfold visitF at h
    by_cases h1 : m.path ∈ st.1
    · rw [if_pos h1] at h
      exact h
    · rw [if_neg h1] at h
      by_cases h2 : m.path ∈ vis
      · rw [if_pos h2] at h
        exact h
      · rw [if_neg h2] at h
        have hne : p ≠ m.path := fun hc => h2 (hc ▸ hp)
        have hgo : p ∈ (visitDepsGo all chunk
            (fun dm vis s => visitF all chunk fuel dm vis s)
            m.dependencies (m.path :: vis) st).1 := by
          rcases List.mem_cons.mp h with hc | hc
          · exact absurd hc hne
          · exact hc
        exact visitDepsGo_no_new_vis all chunk _
          (fun dm vis s q hq hh => ih dm vis s q hq hh)
          m.dependencies (m.path :: vis) st p (List.mem_cons_of_mem _ hp) hgo

/-- Everything the dependency loop pushes is reachable from one of the
dependencies, given the recursive call pushes only what its root
reaches. -/
theorem visitDepsGo_reach (all chunk : List Module)
    (recV : Module → List String → List String × List Module → List String × List Module)
    (hrec : ∀ dm vis s, dm ∈ chunk → ∀ x ∈ (recV dm vis s).2,
      x ∈ s.2 ∨ x = dm ∨ Relation.TransGen (Step all chunk) dm x) :
    ∀ deps vis st, ∀ x ∈ (visitDepsGo all chunk recV deps vis st).2,
      x ∈ st.2 ∨ ∃ d ∈ deps, ∃ B, findMod all d.resolved = some B ∧ B ∈ chunk ∧
        (x = B ∨ Relation.TransGen (Step all chunk) B x) := by
  intro deps
  induction deps with
  | nil => intro vis st x h; exact Or.inl h
  | cons d rest ih =>
    intro vis st x h
    unfold visitDepsGo at h
    rcases hf : findMod all d.resolved with _ | dm
    · simp only [hf] at h
      rcases ih vis st x h with h0 | ⟨d0, hd0, B, hB⟩
      · exact Or.inl h0
      · exact Or.inr ⟨d0, List.mem_cons_of_mem d hd0, B, hB⟩
    · simp only [hf] at h
      by_cases hdm : dm ∈ chunk
      · rw [if_pos hdm] at h
        rcases ih vis _ x h with h0 | ⟨d0, hd0, B, hB⟩
        · rcases hrec dm vis st hdm x h0 with h1 | h1 | h1
          · exact Or.inl h1
          · exact Or.inr ⟨d, List.mem_cons_self d rest, dm, hf, hdm, Or.inl h1⟩
          · exact Or.inr ⟨d, List.mem_cons_self d rest, dm, hf, hdm, Or.inr h1⟩
        · exact Or.inr ⟨d0, List.mem_cons_of_mem d hd0, B, hB⟩
      · rw [if_neg hdm] at h
        rcases ih vis st x h with h0 | ⟨d0, hd0, B, hB⟩
        · exact Or.inl h0
        · exact Or.inr ⟨d0, List.mem_cons_of_mem d hd0, B, hB⟩

/-- Everything `visit` pushes is its root or reachable from it. -/
theorem visitF_reach (all chunk : List Module) :
    ∀ fuel m vis st, m ∈ chunk → ∀ x ∈ (visitF all chunk fuel m vis st).2,
      x ∈ st.2 ∨ x = m ∨ Relation.TransGen (Step all chunk) m x := by
  intro fuel
  induction fuel with
  | zero => intro m vis st _ x h; exact Or.inl h
  | succ fuel ih =>
    intro m vis st hm x h
    unfold visitF at h
    by_cases h1 : m.path ∈ st.1
    · rw [if_pos h1] at h
      exact Or.inl h
    · rw [if_neg h1] at h
      by_cases h2 : m.path ∈ vis
      · rw [if_pos h2] at h
        exact Or.inl h
      · rw [if_neg h2] at h
        rcases List.mem_append.mp h with hgo | hx
        · rcases visitDepsGo_reach all chunk _
            (fun dm vis s hdm y hy => ih dm vis s hdm y hy)
            m.dependencies (m.path :: vis) st x hgo with h0 | ⟨d, hd, B, hf, hB, hreach⟩
          · exact Or.inl h0
          · have hstep : Step all chunk m B := ⟨hm, hB, d, hd, hf⟩
            rcases hreach with hxB | hxB
            · exact Or.inr (Or.inr (hxB ▸ Relation.TransGen.single hstep))
            · exact Or.inr (Or.inr (Relation.TransGen.head hstep hxB))
        · simp only [List.mem_singleton] at hx
          exact Or.inr (Or.inl hx)

/-- The dependency loop preserves the DFS state invariant and the
order invariant, and covers every in-chunk dependency target, given
that the recursive call does so. -/
theorem visitDepsGo_spec (all chunk : List Module) (V' : List String)
    (recV : Module → List String → List String × List Module → List String × List Module)
    (hgrow : ∀ dm vis s, Grows s (recV dm vis s))
    (hrec : ∀ dm s, dm ∈ chunk → StInv chunk s → OrdInv all chunk V' s.2 →
      AncStack all chunk V' dm →
      StInv chunk (recV dm V' s) ∧ OrdInv all chunk V' (recV dm V' s).2 ∧
      (dm.path ∈ (recV dm V' s).1 ∨ dm.path ∈ V')) :
    ∀ deps st, StInv chunk st → OrdInv all chunk V' st.2 →
      (∀ d ∈ deps, ∀ B, findMod all d.resolved = some B → B ∈ chunk →
        AncStack all chunk V' B) →
      StInv chunk (visitDepsGo all chunk recV deps V' st) ∧
      OrdInv all chunk V' (visitDepsGo all chunk recV deps V' st).2 ∧
      (∀ d ∈ deps, ∀ B, findMod all d.resolved = some B → B ∈ chunk →
        B.path ∈ (visitDepsGo all chunk recV deps V' st).1 ∨ B.path ∈ V') := by
  intro deps
  induction deps with
  | nil =>
    intro st hst hord _
    exact ⟨hst, hord, fun d hd => absurd hd (List.not_mem_nil d)⟩
  | cons d rest ih =>
    intro st hst hord hanc
    unfold visitDepsGo
    rcases hf : findMod all d.resolved with _ | dm
    · simp only [hf]
      obtain ⟨h1, h2, h3⟩ := ih st hst hord
        (fun d0 hd0 => hanc d0 (List.mem_cons_of_mem d hd0))
      refine ⟨h1, h2, ?_⟩
      intro d0 hd0 B hfB hB
      rcases List.mem_cons.mp hd0 with he | he
      · subst he
        rw [hf] at hfB
        exact Option.noConfusion hfB
      · exact h3 d0 he B hfB hB
    · simp only [hf]
      by_cases hdm : dm ∈ chunk
      · rw [if_pos hdm]
        have hancdm : AncStack all chunk V' dm :=
          hanc d (List.mem_cons_self d rest) dm hf hdm
        obtain ⟨hst1, hord1, hin1⟩ := hrec dm st hdm hst hord hancdm
        obtain ⟨h1, h2, h3⟩ := ih (recV dm V' st) hst1 hord1
          (fun d0 hd0 => hanc d0 (List.mem_cons_of_mem d hd0))
        refine ⟨h1, h2, ?_⟩
        intro d0 hd0 B hfB hB
        rcases List.mem_cons.mp hd0 with he | he
        · subst he
          rw [hf] at hfB
          have hdB : dm = B := Option.some.inj hfB
          subst hdB
          rcases hin1 with hin | hin
          · exact Or.inl (grows_mem_vis
              (visitDepsGo_grows all chunk recV hgrow rest V' (recV dm V' st)) hin)
          · exact Or.inr hin
        · exact h3 d0 he B hfB hB
      · rw [if_neg hdm]
        obtain ⟨h1, h2, h3⟩ := ih st hst hord
          (fun d0 hd0 => hanc d0 (List.mem_cons_of_mem d hd0))
        refine ⟨h1, h2, ?_⟩
        intro d0 hd0 B hfB hB
        rcases List.mem_cons.mp hd0 with he | he
        · subst he
          rw [hf] at hfB
          have hdB : dm = B := Option.some.inj hfB
          exact absurd (hdB ▸ hB) hdm
        · exact h3 d0 he B hfB hB

/-- The DFS visit preserves the state and order invariants and, given
enough fuel, leaves its root either visited or excused by the
`visiting` stack. -/
theorem visitF_spec (all chunk : List Module)
    (hacyc : Acyclic all chunk) (hnodup : (chunk.map Module.path).Nodup) :
    ∀ fuel m V st, m ∈ chunk → kRem (chunk.map Module.path) V < fuel →
      StInv chunk st → OrdInv all chunk V st.2 → AncStack all chunk V m →
      StInv chunk (visitF all chunk fuel m V st) ∧
      OrdInv all chunk V (visitF all chunk fuel m V st).2 ∧
      (m.path ∈ (visitF all chunk fuel m V st).1 ∨ m.path ∈ V) := by
  intro fuel
  induction fuel with
  | zero =>
    intro m V st _ hfuel
    exact absurd hfuel (Nat.not_lt_zero _)
  | succ fuel ih =>
    intro m V st hm hfuel hst hord hanc
    by_cases h1 : m.path ∈ st.1
    · have hE : visitF all chunk (fuel + 1) m V st = st := by
        unfold visitF
        rw [if_pos h1]
      rw [hE]
      exact ⟨hst, hord, Or.inl h1⟩
    · by_cases h2 : m.path ∈ V
      · have hE : visitF all chunk (fuel + 1) m V st = st := by
          unfold visitF
          rw [if_neg h1, if_pos h2]
        rw [hE]
        exact ⟨hst, hord, Or.inr h2⟩
      · set go := visitDepsGo all chunk
          (fun dm vis s => visitF all chunk fuel dm vis s)
          m.dependencies (m.path :: V) st with hgo
        have hE : visitF all chunk (fuel + 1) m V st =
            (m.path :: go.1, go.2 ++ [m]) := by
          unfold visitF
          rw [if_neg h1, if_neg h2]
        rw [hE]
        have hkrem : kRem (chunk.map Module.path) (m.path :: V) < fuel := by
          have hlt := kRem_cons_lt (chunk.map Module.path) V m.path
            (List.mem_map_of_mem Module.path hm) h2
          omega
        have hordV' : OrdInv all chunk (m.path :: V) st.2 := by
          intro xs A ys hsp d hd B hfB hB
          rcases hord xs A ys hsp d hd B hfB hB with h | h
          · exact Or.inl h
          · exact Or.inr (List.mem_cons_of_mem _ h)
        have hanc' : ∀ d ∈ m.dependencies, ∀ B, findMod all d.resolved = some B →
            B ∈ chunk → AncStack all chunk (m.path :: V) B := by
          intro d hd B hfB hB p hp
          have hstep : Step all chunk m B := ⟨hm, hB, d, hd, hfB⟩
          rcases List.mem_cons.mp hp with he | he
          · exact ⟨m, hm, he.symm, Relation.TransGen.single hstep⟩
          · obtain ⟨C, hC1, hC2, hC3⟩ := hanc p he
            exact ⟨C, hC1, hC2, Relation.TransGen.tail hC3 hstep⟩
        obtain ⟨hstG, hordG, hcomp⟩ := visitDepsGo_spec all chunk (m.path :: V)
          (fun dm vis s => visitF all chunk fuel dm vis s)
          (fun dm vis s => visitF_grows all chunk fuel dm vis s)
          (fun dm s hdm hs ho ha => ih dm (m.path :: V) s hdm hkrem hs ho ha)
          m.dependencies st hst hordV' hanc'
        rw [← hgo] at hstG hordG hcomp
        have hmgo1 : m.path ∉ go.1 := by
          intro hc
          exact h1 (visitDepsGo_no_new_vis all chunk _
            (fun dm vis s q hq hh => visitF_no_new_vis all chunk fuel dm vis s q hq hh)
            m.dependencies (m.path :: V) st m.path (List.mem_cons_self _ _) hc)
        have hmem_of_path : ∀ q, q ∈ chunk → q.path ∈ go.1 → q ∈ go.2 := by
          intro q hq hqp
          rw [hstG.1, List.mem_reverse] at hqp
          obtain ⟨C, hC, hCp⟩ := List.mem_map.mp hqp
          exact (path_inj chunk hnodup C q (hstG.2.1 C hC) hq hCp) ▸ hC
        have hSt2 : StInv chunk (m.path :: go.1, go.2 ++ [m]) := by
          refine ⟨?_, ?_, ?_⟩
          · show m.path :: go.1 = ((go.2 ++ [m]).map Module.path).reverse
            rw [List.map_append, List.reverse_append]
            simp [hstG.1]
          · intro x hx
            rcases List.mem_append.mp hx with hx | hx
            · exact hstG.2.1 x hx
            · simp only [List.mem_singleton] at hx
              exact hx ▸ hm
          · exact List.nodup_cons.mpr ⟨hmgo1, hstG.2.2⟩
        have hOrd2 : OrdInv all chunk V (go.2 ++ [m]) := by
          intro xs A ys hsp d hd B hfB hB
          rcases append_singleton_split go.2 m xs ys A hsp with ⟨hys, hxs, hAm⟩ |
            ⟨ys0, hys, hgo2⟩
          · rw [hxs]
            rw [hAm] at hd
            rcases hcomp d hd B hfB hB with hc | hc
            · exact Or.inl (hmem_of_path B hB hc)
            · rcases List.mem_cons.mp hc with hc | hc
              · have hBm : B = m := path_inj chunk hnodup B m hB hm hc
                have hstepmm : Step all chunk m m := ⟨hm, hm, d, hd, hBm ▸ hfB⟩
                exact absurd (Relation.TransGen.single hstepmm) (hacyc m)
              · exact Or.inr hc
          · rcases hordG xs A ys0 hgo2 d hd B hfB hB with hc | hc
            · exact Or.inl hc
            · rcases List.mem_cons.mp hc with hc | hc
              · have hBm : B = m := path_inj chunk hnodup B m hB hm hc
                have hAgo2 : A ∈ go.2 := by
                  rw [hgo2]
                  exact List.mem_append.mpr (Or.inr (List.mem_cons_self A ys0))
                have hstepAm : Step all chunk A m :=
                  ⟨hstG.2.1 A hAgo2, hm, d, hd, hBm ▸ hfB⟩
                by_cases hAst : A ∈ st.2
                · obtain ⟨xs1, ys1, hsp1⟩ := List.append_of_mem hAst
                  rcases hord xs1 A ys1 hsp1 d hd m (hBm ▸ hfB) hm with hc1 | hc1
                  · have hmst : m ∈ st.2 := by
                      rw [hsp1]
                      exact List.mem_append.mpr (Or.inl hc1)
                    have hmp1 : m.path ∈ st.1 := by
                      rw [hst.1, List.mem_reverse]
                      exact List.mem_map_of_mem Module.path hmst
                    exact absurd hmp1 h1
                  · exact absurd hc1 h2
                · have hAgo2' : A ∈ (visitDepsGo all chunk
                      (fun dm vis s => visitF all chunk fuel dm vis s)
                      m.dependencies (m.path :: V) st).2 := by
                    rw [← hgo]
                    exact hAgo2
                  rcases visitDepsGo_reach all chunk _
                    (fun dm vis s hdm y hy => visitF_reach all chunk fuel dm vis s hdm y hy)
                    m.dependencies (m.path :: V) st A hAgo2' with hr | ⟨d0, hd0, B0, hf0, hB0, hr⟩
                  · exact absurd hr hAst
                  · have hstep0 : Step all chunk m B0 := ⟨hm, hB0, d0, hd0, hf0⟩
                    have htmA : Relation.TransGen (Step all chunk) m A := by
                      rcases hr with hr | hr
                      · exact hr ▸ Relation.TransGen.single hstep0
                      · exact Relation.TransGen.head hstep0 hr
                    exact absurd (Relation.TransGen.tail htmA hstepAm) (hacyc m)
              · exact Or.inr hc
        exact ⟨hSt2, hOrd2, Or.inl (List.mem_cons_self m.path go.1)⟩

/-- Duplicate-freedom of a split list forces the middle element out of
the prefix. -/
theorem not_mem_left_of_nodup_split {α : Type} {l1 l2 : List α} {a : α}
    (h : (l1 ++ a :: l2).Nodup) : a ∉ l1 := by
  rw [List.nodup_append] at h
  exact fun ha => h.2.2 ha (List.mem_cons_self a l2)

/-- The whole `topologicalSort` fold keeps the invariants and visits
every listed module. -/
theorem foldVisit_spec (all chunk : List Module)
    (hacyc : Acyclic all chunk) (hnodup : (chunk.map Module.path).Nodup) :
    ∀ (l : List Module) (st : List String × List Module),
      (∀ x ∈ l, x ∈ chunk) → StInv chunk st → OrdInv all chunk [] st.2 →
      StInv chunk (l.foldl (fun st m => visitF all chunk (chunk.length + 1) m [] st) st) ∧
      OrdInv all chunk []
        (l.foldl (fun st m => visitF all chunk (chunk.length + 1) m [] st) st).2 ∧
      Grows st (l.foldl (fun st m => visitF all chunk (chunk.length + 1) m [] st) st) ∧
      (∀ m ∈ l,
        m.path ∈ (l.foldl (fun st m => visitF all chunk (chunk.length + 1) m [] st) st).1) := by
  intro l
  induction l with
  | nil =>
    intro st _ hst hord
    exact ⟨hst, hord, grows_refl st, fun m hm => absurd hm (List.not_mem_nil m)⟩
  | cons a l ih =>
    intro st hsub hst hord
    rw [List.foldl_cons]
    have ha : a ∈ chunk := hsub a (List.mem_cons_self a l)
    have hkr : kRem (chunk.map Module.path) [] < chunk.length + 1 := by
      have h1 := kRem_nil_le (chunk.map Module.path)
      rw [List.length_map] at h1
      omega
    have hanc0 : AncStack all chunk [] a := fun p hp => absurd hp (List.not_mem_nil p)
    obtain ⟨hst1, hord1, hin1⟩ := visitF_spec all chunk hacyc hnodup
      (chunk.length + 1) a [] st ha hkr hst hord hanc0
    have hin1' : a.path ∈ (visitF all chunk (chunk.length + 1) a [] st).1 := by
      rcases hin1 with h | h
      · exact h
      · exact absurd h (List.not_mem_nil _)
    obtain ⟨h1, h2, h3, h4⟩ := ih (visitF all chunk (chunk.length + 1) a [] st)
      (fun x hx => hsub x (List.mem_cons_of_mem a hx)) hst1 hord1
    refine ⟨h1, h2, grows_trans (visitF_grows all chunk _ a [] st) h3, ?_⟩
    intro m hm
    rcases List.mem_cons.mp hm with he | he
    · exact he ▸ grows_mem_vis h3 hin1'
    · exact h4 m he

/-- C7: for every chunk whose intra-chunk dependency relation is
acyclic and whose module paths are distinct, `topologicalSort` emits
every chunk module, and for every dependency edge from module `A` to
module `B` with both modules in the chunk, `B` appears strictly before
`A` in the emitted order. -/
theorem c7_chunk_order_respects_dependencies
    (all chunk : List Module)
    (hacyc : Acyclic all chunk) (hnodup : (chunk.map Module.path).Nodup)
    (A B : Module) (hA : A ∈ chunk) (hB : B ∈ chunk)
    (d : Dependency) (hd : d ∈ A.dependencies)
    (hres : findMod all d.resolved = some B) :
    B ∈ topologicalSort all chunk ∧ A ∈ topologicalSort all chunk ∧
      (topologicalSort all chunk).indexOf B < (topologicalSort all chunk).indexOf A := by
  have hord0 : OrdInv all chunk [] ([] : List Module) := by
    intro xs A0 ys hsp d0 hd0 B0 hf0 hB0
    simp at hsp
  have hst0 : StInv chunk (([] : List String), ([] : List Module)) :=
    ⟨rfl, fun x hx => absurd hx (List.not_mem_nil x), List.nodup_nil⟩
  obtain ⟨hstF, hordF, _, hcov⟩ := foldVisit_spec all chunk hacyc hnodup chunk
    (([] : List String), ([] : List Module)) (fun x hx => hx) hst0 hord0
  set F := chunk.foldl (fun st m => visitF all chunk (chunk.length + 1) m [] st)
    (([] : List String), ([] : List Module)) with hF
  have hts : topologicalSort all chunk = F.2 := rfl
  rw [hts]
  have hmemF : ∀ q, q ∈ chunk → q.path ∈ F.1 → q ∈ F.2 := by
    intro q hq hqp
    rw [hstF.1, List.mem_reverse] at hqp
    obtain ⟨C, hC, hCp⟩ := List.mem_map.mp hqp
    exact (path_inj chunk hnodup C q (hstF.2.1 C hC) hq hCp) ▸ hC
  have hAF2 : A ∈ F.2 := hmemF A hA (hcov A hA)
  have hBF2 : B ∈ F.2 := hmemF B hB (hcov B hB)
  obtain ⟨xs, ys, hsp⟩ := List.append_of_mem hAF2
  have hBxs : B ∈ xs := by
    rcases hordF xs A ys hsp d hd B hres hB with h | h
    · exact h
    · exact absurd h (List.not_mem_nil _)
  have hndF2 : (F.2.map Module.path).Nodup := by
    have h := hstF.2.2
    rw [hstF.1] at h
    exact List.nodup_reverse.mp h
  have hsplitmap : F.2.map Module.path =
      xs.map Module.path ++ A.path :: ys.map Module.path := by
    rw [hsp]
    simp
  have hAnotxs : A ∉ xs := by
    intro hax
    rw [hsplitmap] at hndF2
    exact not_mem_left_of_nodup_split hndF2 (List.mem_map_of_mem Module.path hax)
  refine ⟨hBF2, hAF2, ?_⟩
  rw [hsp, indexOf_append_cons_self xs A ys hAnotxs, indexOf_append_left xs (A :: ys) B hBxs]
  exact List.indexOf_lt_length.mpr hBxs

/-- In the concrete two-module chunk, the only dependency step goes
from the entry to its dependency. -/
theorem step_cm (x y : Module) (h : Step [cmMain, cmDep] [cmMain, cmDep] x y) :
    x = cmMain ∧ y = cmDep := by
  obtain ⟨hx, _, d, hd, hf⟩ := h
  rcases List.mem_cons.mp hx with hx1 | hx1
  · subst hx1
    refine ⟨rfl, ?_⟩
    simp [cmMain] at hd
    subst hd
    have hfv : findMod [cmMain, cmDep] "/p/dep.js" = some cmDep := by decide
    exact (Option.some.inj (hfv.symm.trans hf)).symm
  · rcases List.mem_cons.mp hx1 with hx2 | hx2
    · subst hx2
      simp [cmDep] at hd
    · exact absurd hx2 (List.not_mem_nil x)

/-- The concrete two-module chunk has no dependency cycle. -/
theorem acyclic_cm : Acyclic [cmMain, cmDep] [cmMain, cmDep] := by
  intro m hm
  cases hm with
  | single h =>
    obtain ⟨h1, h2⟩ := step_cm m m h
    rw [h1] at h2
    exact absurd h2 (by decide)
  | tail hp hl =>
    obtain ⟨h1, h2⟩ := step_cm _ m hl
    subst h1
    cases hp with
    | single h0 =>
      obtain ⟨_, h4⟩ := step_cm m cmMain h0
      exact absurd h4 (by decide)
    | tail hp2 hl2 =>
      obtain ⟨_, h4⟩ := step_cm _ cmMain hl2
      exact absurd h4 (by decide)

/-- Witness: on the concrete acyclic chunk `[cmMain, cmDep]`, the
emitted order contains both modules and places the dependency before
the entry that imports it. -/
theorem c7_chunk_order_respects_dependencies_witness :
    cmDep ∈ topologicalSort [cmMain, cmDep] [cmMain, cmDep] ∧
    cmMain ∈ topologicalSort [cmMain, cmDep] [cmMain, cmDep] ∧
    (topologicalSort [cmMain, cmDep] [cmMain, cmDep]).indexOf cmDep <
      (topologicalSort [cmMain, cmDep] [cmMain, cmDep]).indexOf cmMain :=
  c7_chunk_order_respects_dependencies [cmMain, cmDep] [cmMain, cmDep]
    acyclic_cm (by decide) cmMain cmDep (by decide) (by decide)
    { specifier := "./dep.js", resolved := "/p/dep.js",
      isDynamic := false, isTypeOnly := false }
    (by decide) (by decide)
